import Mathlib

/-!
Verification of the polymorph TACT fetcher / sheepfile repacker.

Shallow embedding conventions:
* Rust `u8` bytes are `Nat`; byte buffers (`&[u8]`, `Vec<u8>`) are `List Nat`,
  except the archive-index parser, whose multi-kilobyte blobs are modelled by
  `ByteBuf` (a length together with an index-to-byte function), the arithmetic
  view of a Rust slice.
* Fallible Rust code returning `Result<T, E>` is embedded as `RResult E T`;
  a Rust `panic!` / out-of-bounds index / failed `unwrap` is the extra
  constructor `RResult.crash`.
* External library calls that are not code of this repository (zlib inflation
  from `miniz_oxide`, the Jenkins `lookup3` hash from `hashers`, HTTP and file
  I/O) are passed in as explicit function parameters.
-/

set_option maxRecDepth 4000

namespace Polymorph

/-- Result of running a piece of Rust code: normal return, `Err`, or a panic
(`crash` covers `panic!`, failed `unwrap`/`expect` and out-of-bounds
indexing/slicing). -/
inductive RResult (ε α : Type) where
  | ok (a : α)
  | err (e : ε)
  | crash
  deriving DecidableEq, Repr

/-- Error enum of `src/error.rs` (the `Error` type). HTTP/IO/Deku/Zlib
payloads are dropped; only the variant matters to the spec. -/
inductive RError where
  | httpRequestError
  | ioError
  | dekuError
  | missingCKey
  | zlibError
  | missingFileId (id : Nat)
  | missingFileName (path : String)
  | unsupportedEncryptedData
  deriving DecidableEq, Repr

/-! ## Key codec (`src/tact/common.rs`, `impl_key!`) -/

/-- One byte rendered by Rust `format!("{:x}", b)`: lowercase hex with **no**
zero padding, so bytes below 0x10 yield a single character. -/
def fmt_lower_hex (b : Nat) : List Char :=
  if b < 16 then [Nat.digitChar b]
  else [Nat.digitChar (b / 16), Nat.digitChar (b % 16)]

/-- `CKey::to_string` / `EKey::to_string`: concatenation of `format!("{:x}", b)`
over the 16 key bytes. -/
def key_to_string (key : List Nat) : List Char :=
  key.foldl (fun acc b => acc ++ fmt_lower_hex b) []

/-- Value of an ASCII hex digit, as accepted by `u8::from_str_radix(_, 16)`. -/
def hexDigitVal (c : Char) : Option Nat :=
  if '0' ≤ c ∧ c ≤ '9' then some (c.toNat - '0'.toNat)
  else if 'a' ≤ c ∧ c ≤ 'f' then some (c.toNat - 'a'.toNat + 10)
  else if 'A' ≤ c ∧ c ≤ 'F' then some (c.toNat - 'A'.toNat + 10)
  else none

/-- One iteration of the `from_str` loop: parse the two-character slice
`&s[i*2..i*2+2]`; a non-hex character makes `u8::from_str_radix(..).unwrap()`
panic. -/
def key_byte_of_chars (c1 c2 : Char) : RResult String Nat :=
  match hexDigitVal c1, hexDigitVal c2 with
  | some h, some l => .ok (h * 16 + l)
  | _, _ => .crash

/-- Loop of `from_str`: for `i in 0..16`, decode `&s[i*2..i*2+2]`. -/
def key_from_str_loop (s : List Char) : Nat → List Nat → RResult String (List Nat)
  | 0, acc => .ok acc
  | n + 1, acc =>
    let i := 16 - (n + 1)
    match key_byte_of_chars (s.getD (i * 2) ' ') (s.getD (i * 2 + 1) ' ') with
    | .ok b => key_from_str_loop s n (acc ++ [b])
    | _ => .crash

/-- `CKey::from_str` / `EKey::from_str`: reject strings whose length is not 32,
then decode 16 two-character slices (panicking on non-hex input). -/
def key_from_str (s : List Char) : RResult String (List Nat) :=
  if s.length ≠ 32 then
    .err ("requires string length of 16, got " ++ toString s.length)
  else
    key_from_str_loop s 16 []

/-- `NULL_EKEY`: the all-zero 16-byte key. -/
def NULL_EKEY : List Nat := List.replicate 16 0

/-! ## BLTE decoder (`src/tact/btle.rs`) -/

/-- Chunk descriptor `BLTEChunk` (all fields big-endian on the wire). -/
structure BLTEChunk where
  compressed_size : Nat
  uncompressed_size : Nat
  checksum : List Nat
  deriving DecidableEq, Repr

/-- Header `BLTEHeader`: magic `BLTE`, `data_offset: u32` BE, `flag: u8`,
`chunk_count: u24` BE, then `chunk_count` chunk descriptors. -/
structure BLTEHeader where
  data_offset : Nat
  flag : Nat
  chunk_count : Nat
  chunks : List BLTEChunk
  deriving DecidableEq, Repr

/-- Big-endian read of `n` bytes of `buf` starting at `pos`. -/
def readBE (buf : List Nat) (pos n : Nat) : Nat :=
  (List.range n).foldl (fun acc i => acc * 256 + buf.getD (pos + i) 0) 0

/-- Extract `n` bytes of `buf` starting at `pos`. -/
def bytesAt (buf : List Nat) (pos n : Nat) : List Nat :=
  (buf.drop pos).take n

/-- Deku-derived `BLTEHeader::from_bytes`: check the 4-byte magic, read the
fixed header fields, then `chunk_count` 24-byte chunk descriptors; a buffer too
short for any field is a parse error (`none`, surfaced as `Error::DekuError`). -/
def parse_blte_header (buf : List Nat) : Option BLTEHeader :=
  if 12 ≤ buf.length then
    if bytesAt buf 0 4 = [66, 76, 84, 69] then
      let count := readBE buf 9 3
      if 12 + 24 * count ≤ buf.length then
        some {
          data_offset := readBE buf 4 4
          flag := buf.getD 8 0
          chunk_count := count
          chunks := (List.range count).map (fun i =>
            { compressed_size := readBE buf (12 + 24 * i) 4
              uncompressed_size := readBE buf (16 + 24 * i) 4
              checksum := bytesAt buf (20 + 24 * i) 16 }) }
      else none
    else none
  else none

/-- Per-chunk loop of `decode_blte`. `inflate` stands for
`miniz_oxide::inflate::decompress_to_vec_zlib` (`none` = `Err`, mapped to
`Error::ZlibError`). The slice `&buf[data_offs .. data_offs + compressed_size]`
panics when it overruns `buf`; `chunk_buf[0]` panics when the chunk is empty;
an unrecognized frame tag hits `c => panic!("{}", c)`. Tag bytes: `N` = 78,
`Z` = 90. -/
def decode_blte_loop (inflate : List Nat → Option (List Nat)) (buf : List Nat) :
    List BLTEChunk → Nat → List Nat → RResult RError (List Nat)
  | [], _, out => .ok out
  | c :: rest, data_offs, out =>
    if data_offs + c.compressed_size > buf.length then .crash
    else if c.compressed_size = 0 then .crash
    else
      let tag := buf.getD data_offs 0
      let body := bytesAt buf (data_offs + 1) (c.compressed_size - 1)
      if tag = 78 then
        decode_blte_loop inflate buf rest (data_offs + c.compressed_size) (out ++ body)
      else if tag = 90 then
        match inflate body with
        | some d => decode_blte_loop inflate buf rest (data_offs + c.compressed_size) (out ++ d)
        | none => .err .zlibError
      else .crash

/-- `decode_blte` (`src/tact/btle.rs:28-46`): parse the header, then walk the
chunks starting at `data_offset`, appending each decoded frame body. -/
def decode_blte (inflate : List Nat → Option (List Nat)) (buf : List Nat) :
    RResult RError (List Nat) :=
  match parse_blte_header buf with
  | none => .err .dekuError
  | some header => decode_blte_loop inflate buf header.chunks header.data_offset []

/-! ## HashMap model

Rust `HashMap` is modelled as an association list whose `insert` first erases
any existing binding of the key: lookup sees the last write and `length` counts
distinct keys, matching `HashMap::insert` / `get` / `len`. -/

/-- `HashMap::insert` (overwrite semantics). -/
def mapInsert {κ ν : Type} [DecidableEq κ] (m : List (κ × ν)) (k : κ) (v : ν) :
    List (κ × ν) :=
  (k, v) :: m.filter (fun p => decide (p.1 ≠ k))

/-- `HashMap::get`. -/
def mapLookup {κ ν : Type} [DecidableEq κ] (m : List (κ × ν)) (k : κ) : Option ν :=
  (m.find? (fun p => decide (p.1 = k))).map (·.2)

/-! ## Root table (`src/tact/root.rs`)

`RootBlock::from_bytes` is deku-derived: a little-endian `num_files`, two flag
words, `num_files` deltas and `num_files` entries. The embedding takes the
parse at the block level (a parsed root table is a list of such blocks, in file
order) and models the hand-written reconstruction loop of `RootFile::parse`
exactly; the two `count`-governed vectors are zipped just as the source does. -/

/-- `RootFileEntry`: a content key and a 64-bit little-endian name hash. -/
structure RootFileEntry where
  ckey : List Nat
  name_hash : Nat
  deriving DecidableEq, Repr

/-- Parsed `RootBlock` payload (the `_num_files`, `_content_flags` and
`_locale_flags` words only govern the vector lengths / are unused). -/
structure RootBlock where
  file_id_delta_table : List Nat
  file_entries : List RootFileEntry
  deriving DecidableEq, Repr

/-- `RootFile`: entry list plus the two derived lookup indices. -/
structure RootFile where
  entries : List RootFileEntry
  file_id_to_entry_index : List (Nat × Nat)
  name_hash_to_entry_index : List (Nat × Nat)
  deriving DecidableEq, Repr

/-- Inner loop of `RootFile::parse` over one block: `file_id += delta`, record
`file_id → entries.len()` in both indices, `file_id += 1`, push the entry. -/
def root_block_loop (st : RootFile) (fid : Nat) :
    List (Nat × RootFileEntry) → RootFile
  | [] => st
  | (delta, entry) :: rest =>
    let fid := fid + delta
    let st' : RootFile :=
      { entries := st.entries ++ [entry]
        file_id_to_entry_index :=
          mapInsert st.file_id_to_entry_index fid st.entries.length
        name_hash_to_entry_index :=
          mapInsert st.name_hash_to_entry_index entry.name_hash st.entries.length }
    root_block_loop st' (fid + 1) rest

/-- Outer loop of `RootFile::parse`: blocks are decoded until `from_bytes`
fails, each resetting `file_id` to 0 and zipping deltas with entries. -/
def root_parse_blocks : List RootBlock → RootFile → RootFile
  | [], st => st
  | b :: rest, st =>
      root_parse_blocks rest
        (root_block_loop st 0 (List.zip b.file_id_delta_table b.file_entries))

/-- `RootFile::parse`, starting from the three empty collections. -/
def root_parse (blocks : List RootBlock) : RootFile :=
  root_parse_blocks blocks ⟨[], [], []⟩

/-- `RootFile::get_ckey_for_file_id` composed with `get_entry_ckey`: the index
lookup followed by `entries[index]` (the latter cannot miss for an index the
parser produced, but the raw indexing is kept). -/
def root_get_entry_for_file_id (rf : RootFile) (file_id : Nat) :
    Option RootFileEntry :=
  (mapLookup rf.file_id_to_entry_index file_id).bind (fun i => rf.entries[i]?)

/-! ## Archive index (`src/tact/archive.rs`)

Archive index blobs are ≥ 4 KiB, so buffers here are `ByteBuf`: a size and an
index-to-byte function, the arithmetic view of a Rust `&[u8]`. Reads past
`size` never occur without an explicit bounds check mirroring the source. -/

/-- Byte buffer as length plus content function (bytes at indices `< size`). -/
structure ByteBuf where
  size : Nat
  byte : Nat → Nat

/-- Big-endian read of `n` bytes at `pos`. -/
def ByteBuf.readBE (data : ByteBuf) (pos n : Nat) : Nat :=
  (List.range n).foldl (fun acc i => acc * 256 + data.byte (pos + i)) 0

/-- Little-endian read of `n` bytes at `pos` (deku's default endianness for
`num_files`). -/
def ByteBuf.readLE (data : ByteBuf) (pos n : Nat) : Nat :=
  (List.range n).foldr (fun i acc => acc * 256 + data.byte (pos + i)) 0

/-- The 16 bytes at `pos`, as a key. -/
def ByteBuf.key16 (data : ByteBuf) (pos : Nat) : List Nat :=
  (List.range 16).map (fun i => data.byte (pos + i))

/-- `ArchiveIndexFooter` (deku): `toc_hash: [u8;16]`, then the asserted shape
bytes, then `num_files: u32`. -/
structure ArchiveIndexFooter where
  toc_hash : List Nat
  version : Nat
  block_size_kb : Nat
  offset_bytes : Nat
  size_bytes : Nat
  key_size_in_bytes : Nat
  checksum_size : Nat
  num_files : Nat
  deriving DecidableEq, Repr

/-- `ArchiveIndexEntry`: 16-byte ekey, big-endian `size_bytes` and
`offset_bytes`. -/
structure ArchiveIndexEntry where
  ekey : List Nat
  size_bytes : Nat
  offset_bytes : Nat
  deriving DecidableEq, Repr

/-- `ArchiveIndex`: the recovered entry map plus the archive's hex key. -/
structure ArchiveIndex where
  entries : List (List Nat × ArchiveIndexEntry)
  key : String
  deriving DecidableEq, Repr

/-- Deku parse of the footer from the 0x24-byte tail slice starting at `pos`
(= `data.size - 0x24`): 28 bytes are consumed (16 + 1 + 2 padding + 5 asserted
bytes + 4), each `assert_eq` failure being a `DekuError`. -/
def parse_archive_footer (data : ByteBuf) (pos : Nat) : Option ArchiveIndexFooter :=
  let footer : ArchiveIndexFooter :=
    { toc_hash := data.key16 pos
      version := data.byte (pos + 16)
      block_size_kb := data.byte (pos + 19)
      offset_bytes := data.byte (pos + 20)
      size_bytes := data.byte (pos + 21)
      key_size_in_bytes := data.byte (pos + 22)
      checksum_size := data.byte (pos + 23)
      num_files := data.readLE (pos + 24) 4 }
  if footer.version = 1 ∧ footer.block_size_kb = 4 ∧ footer.offset_bytes = 4 ∧
      footer.size_bytes = 4 ∧ footer.key_size_in_bytes = 16 ∧
      footer.checksum_size = 8 then
    some footer
  else none

/-- Inner loop of `ArchiveIndex::parse` over one block slice
`[block_start, block_end)`: parse 24-byte entries until the remainder cannot
form one (deku error → break) or an all-zero ekey is read (sentinel → break).
Returns the updated map and running `num_files` count. `pos` is the read
cursor inside the block; the recursion is on the bytes left in the block. -/
def archive_block_loop (data : ByteBuf) (block_end : Nat)
    (entries : List (List Nat × ArchiveIndexEntry)) (count : Nat) (pos : Nat)
    (fuel : Nat) : List (List Nat × ArchiveIndexEntry) × Nat :=
  match fuel with
  | 0 => (entries, count)
  | fuel + 1 =>
    if pos + 24 ≤ block_end then
      let entry : ArchiveIndexEntry :=
        { ekey := data.key16 pos
          size_bytes := data.readBE (pos + 16) 4
          offset_bytes := data.readBE (pos + 20) 4 }
      if entry.ekey = NULL_EKEY then (entries, count)
      else
        archive_block_loop data block_end (mapInsert entries entry.ekey entry)
          (count + 1) (pos + 24) fuel
    else (entries, count)

/-- Outer loop of `ArchiveIndex::parse`: slice `&data[block_start ..
block_start + block_size]` (a slice past the end of the buffer panics), run
the block loop, advance, and stop once the running count reaches
`footer.num_files`. Fuel only bounds the recursion; it is chosen large enough
in `archive_index_parse` that exhaustion (`crash`) is unreachable. -/
def archive_outer_loop (data : ByteBuf) (block_size : Nat) (target : Nat)
    (entries : List (List Nat × ArchiveIndexEntry)) (count : Nat)
    (block_start : Nat) (fuel : Nat) :
    RResult RError (List (List Nat × ArchiveIndexEntry)) :=
  match fuel with
  | 0 => .crash
  | fuel + 1 =>
    let block_end := block_start + block_size
    if block_end > data.size then .crash
    else
      let (entries, count) :=
        archive_block_loop data block_end entries count block_start block_size
      if count ≥ target then .ok entries
      else archive_outer_loop data block_size target entries count
        (block_start + block_size) fuel

/-- `ArchiveIndex::parse` (`src/tact/archive.rs:51-87`): `data.len() - 0x24`
underflows (panics) on a sub-0x24 buffer; the footer is deku-parsed from the
tail; blocks of `block_size_kb << 10` bytes are then consumed until the entry
count reaches `footer.num_files`. -/
def archive_index_parse (key : String) (data : ByteBuf) :
    RResult RError ArchiveIndex :=
  if data.size < 0x24 then .crash
  else
    match parse_archive_footer data (data.size - 0x24) with
    | none => .err .dekuError
    | some footer =>
      let block_size := footer.block_size_kb <<< 10
      match archive_outer_loop data block_size footer.num_files [] 0 0
          (data.size / block_size + 2) with
      | .ok entries => .ok ⟨entries, key⟩
      | .err e => .err e
      | .crash => .crash

/-! ## Sheepfile writer (`src/sheepfile/writer.rs`, `src/sheepfile/mod.rs`) -/

/-- `MAX_DATA_FILE_SIZE_BYTES` (the spec's `MAX_SEGMENT_BYTES`). -/
def MAX_DATA_FILE_SIZE_BYTES : Nat := 256000000

/-- `Entry` of `src/sheepfile/mod.rs`. -/
structure Entry where
  file_id : Nat
  name_hash : Nat
  data_file_index : Nat
  start_bytes : Nat
  size_bytes : Nat
  deriving DecidableEq, Repr

/-- `Index` of `src/sheepfile/mod.rs`, as written by `finish`. -/
structure Index where
  num_entries : Nat
  entries : List Entry
  deriving DecidableEq, Repr

/-- `SheepfileWriter` state. The bytes written to each segment file are kept:
`closed_files` holds the finished `data{0..N-1}.baa` contents,
`current_file` the bytes of `data{current_data_index}.baa` so far. -/
structure SheepfileWriter where
  current_data_index : Nat
  current_file : List Nat
  current_data_file_size : Nat
  closed_files : List (List Nat)
  entries : List Entry
  deriving DecidableEq, Repr

/-- `SheepfileWriter::new`: segment 0 created empty. -/
def writer_new : SheepfileWriter :=
  { current_data_index := 0
    current_file := []
    current_data_file_size := 0
    closed_files := []
    entries := [] }

/-- `new_data_file`: bump the segment counter and start an empty file (the
previous current file is closed). -/
def new_data_file (st : SheepfileWriter) : SheepfileWriter :=
  { current_data_index := st.current_data_index + 1
    current_file := []
    current_data_file_size := 0
    closed_files := st.closed_files ++ [st.current_file]
    entries := st.entries }

/-- `append_entry` (`src/sheepfile/writer.rs:81-95`): roll to a new segment if
the payload would push the current one past the cap, record the entry at the
current offset, then write the payload. -/
def append_entry (st : SheepfileWriter) (file_id name_hash : Nat)
    (data : List Nat) : SheepfileWriter :=
  let st :=
    if data.length + st.current_data_file_size > MAX_DATA_FILE_SIZE_BYTES then
      new_data_file st
    else st
  { st with
    entries := st.entries ++ [{
      file_id := file_id
      name_hash := name_hash
      data_file_index := st.current_data_index
      start_bytes := st.current_data_file_size
      size_bytes := data.length }]
    current_file := st.current_file ++ data
    current_data_file_size := st.current_data_file_size + data.length }

/-- Bytes of segment file `data{i}.baa` in a writer state. -/
def segment_bytes (st : SheepfileWriter) (i : Nat) : List Nat :=
  if i < st.closed_files.length then st.closed_files.getD i []
  else if i = st.current_data_index then st.current_file
  else []

/-- `finish`: write `index.shp` as the entry count followed by the entries in
the order they were appended. -/
def writer_finish (st : SheepfileWriter) : Index :=
  { num_entries := st.entries.length, entries := st.entries }

/-- Sequence of `append_entry` calls (payloads tagged with id and hash). -/
def run_appends (st : SheepfileWriter) : List (Nat × Nat × List Nat) → SheepfileWriter
  | [] => st
  | (fid, nh, d) :: rest => run_appends (append_entry st fid nh d) rest

/-- One unit of the `write_cdn_files` work list after the resolution and
coalesced-fetch phases: a file id, its name hash, and the outcome of
`decode_blte` on the entry's fetched bytes. -/
structure WorkItem where
  file_id : Nat
  name_hash : Nat
  decoded : RResult RError (List Nat)

/-- Order used by `all_entries.sort_by(|a, b| a.0.cmp(&b.0))`. -/
def workLe (a b : WorkItem) : Prop := a.file_id ≤ b.file_id

instance : DecidableRel workLe := fun a b => Nat.decLe a.file_id b.file_id

instance : IsTotal WorkItem workLe := ⟨fun a b => Nat.le_total a.file_id b.file_id⟩

instance : IsTrans WorkItem workLe := ⟨fun _ _ _ => Nat.le_trans⟩

/-- Append phase of `write_cdn_files` (`src/sheepfile/writer.rs:66-76`): per
sorted item, append the decoded bytes; on `Err(UnsupportedEncryptedData)` log
and `continue`; any other error aborts the whole write. -/
def write_loop (st : SheepfileWriter) : List WorkItem → RResult RError SheepfileWriter
  | [] => .ok st
  | it :: rest =>
    match it.decoded with
    | .ok d => write_loop (append_entry st it.file_id it.name_hash d) rest
    | .err .unsupportedEncryptedData => write_loop st rest
    | .err e => .err e
    | .crash => .crash

/-- `write_cdn_files` after resolution: sort the merged work list by file id
(Rust's stable `sort_by`, modelled by insertion sort), run the append loop,
then `finish`. -/
def write_cdn_files (items : List WorkItem) : RResult RError Index :=
  match write_loop writer_new (List.insertionSort workLe items) with
  | .ok st => .ok (writer_finish st)
  | .err e => .err e
  | .crash => .crash

/-! ## CDN fetcher resolution (`src/cdn.rs`) -/

/-- `EncodingFile`: the CKey → EKey map (`get_ekey_for_ckey` is a plain
lookup). -/
structure EncodingFile where
  ckey_to_ekey : List (List Nat × List Nat)

/-- `EncodingFile::get_ekey_for_ckey`. -/
def get_ekey_for_ckey (enc : EncodingFile) (ckey : List Nat) : Option (List Nat) :=
  mapLookup enc.ckey_to_ekey ckey

/-- `ArchiveIndex::get_entry_for_ekey`. -/
def get_entry_for_ekey (idx : ArchiveIndex) (ekey : List Nat) :
    Option ArchiveIndexEntry :=
  mapLookup idx.entries ekey

/-- Resolution-relevant state of `CDNFetcher`. -/
structure CDNFetcher where
  archive_index : List ArchiveIndex
  root : RootFile
  encoding : EncodingFile

/-- `CDNFetcher::find_archive_entry`: linear scan of the archive list. -/
def find_archive_entry (f : CDNFetcher) (ekey : List Nat) :
    Option (ArchiveIndex × ArchiveIndexEntry) :=
  f.archive_index.findSome? (fun idx =>
    (get_entry_for_ekey idx ekey).map (fun e => (idx, e)))

/-- `RootFile::get_ckey_for_file_id`: index lookup then `entries[index]`
(raw indexing; an out-of-range index stored in the map would panic). -/
def get_ckey_for_file_id (rf : RootFile) (file_id : Nat) :
    RResult RError (Option (List Nat)) :=
  match mapLookup rf.file_id_to_entry_index file_id with
  | none => .ok none
  | some i =>
    match rf.entries[i]? with
    | some e => .ok (some e.ckey)
    | none => .crash

/-- Path normalization of `RootFile::get_ckey_for_file_path`: ASCII uppercase
fold and `/` → `\`. -/
def normalize_path (name : List Char) : List Char :=
  name.map (fun c => if c = '/' then '\\' else c.toUpper)

/-- `RootFile::get_ckey_for_file_path`. `hash` stands for
`hashers::jenkins::lookup3` over the normalized name's bytes. -/
def get_ckey_for_file_path (rf : RootFile) (hash : List Char → Nat)
    (name : List Char) : RResult RError (Option (List Nat)) :=
  match mapLookup rf.name_hash_to_entry_index (hash (normalize_path name)) with
  | none => .ok none
  | some i =>
    match rf.entries[i]? with
    | some e => .ok (some e.ckey)
    | none => .crash

/-- `CDNFetcher::fetch_ckey_from_archive` (`src/cdn.rs:292-301`): encoding
lookup, then archive scan, then the cache fetch (`fetchBytes` stands for
`cache.fetch_archive_entry`, which can fail with HTTP/IO errors); a miss at
either lookup is `Ok(None)`. -/
def fetch_ckey_from_archive (f : CDNFetcher)
    (fetchBytes : ArchiveIndex → ArchiveIndexEntry → RResult RError (List Nat))
    (ckey : List Nat) : RResult RError (Option (List Nat)) :=
  match get_ekey_for_ckey f.encoding ckey with
  | none => .ok none
  | some ekey =>
    match find_archive_entry f ekey with
    | none => .ok none
    | some (archive, entry) =>
      match fetchBytes archive entry with
      | .ok data => .ok (some data)
      | .err e => .err e
      | .crash => .crash

/-- `CDNFetcher::fetch_file_id` (`src/cdn.rs:303-307`): root lookup
(`ok_or(MissingFileId)`), archive fetch (`ok_or(MissingCKey)`), BLTE decode. -/
def fetch_file_id (f : CDNFetcher)
    (fetchBytes : ArchiveIndex → ArchiveIndexEntry → RResult RError (List Nat))
    (inflate : List Nat → Option (List Nat)) (file_id : Nat) :
    RResult RError (List Nat) :=
  match get_ckey_for_file_id f.root file_id with
  | .crash => .crash
  | .err e => .err e
  | .ok none => .err (.missingFileId file_id)
  | .ok (some ckey) =>
    match fetch_ckey_from_archive f fetchBytes ckey with
    | .crash => .crash
    | .err e => .err e
    | .ok none => .err .missingCKey
    | .ok (some data) => decode_blte inflate data

/-- `CDNFetcher::fetch_file_name` (`src/cdn.rs:309-313`): like
`fetch_file_id` but through the name-hash index, missing names giving
`MissingFileName(path)`. -/
def fetch_file_name (f : CDNFetcher)
    (fetchBytes : ArchiveIndex → ArchiveIndexEntry → RResult RError (List Nat))
    (inflate : List Nat → Option (List Nat)) (hash : List Char → Nat)
    (path : List Char) : RResult RError (List Nat) :=
  match get_ckey_for_file_path f.root hash path with
  | .crash => .crash
  | .err e => .err e
  | .ok none => .err (.missingFileName (String.mk path))
  | .ok (some ckey) =>
    match fetch_ckey_from_archive f fetchBytes ckey with
    | .crash => .crash
    | .err e => .err e
    | .ok none => .err .missingCKey
    | .ok (some data) => decode_blte inflate data

/-! ## Coalesced range fetch (`src/cdn.rs:141-154`) -/

/-- `ArchiveIndexEntry::get_byte_range` (`src/tact/archive.rs:43-47`):
half-open `[offset, offset + size)`. -/
def get_byte_range (e : ArchiveIndexEntry) : Nat × Nat :=
  (e.offset_bytes, e.offset_bytes + e.size_bytes)

/-- Loop body of the range-union fold: widen by `min` of starts and `max` of
ends. -/
def range_union_step (r : Nat × Nat) (e : ArchiveIndexEntry) : Nat × Nat :=
  (Nat.min r.1 (get_byte_range e).1, Nat.max r.2 (get_byte_range e).2)

/-- Range-union fold of `fetch_archive_entries`: start from `entries[0]`'s
range, then widen over all entries. -/
def coalesced_range (first : ArchiveIndexEntry) (entries : List ArchiveIndexEntry) :
    Nat × Nat :=
  entries.foldl range_union_step (get_byte_range first)

/-- Cache-hit path of `read_or_cache_segment` with the whole archive present
on disk (`archive` = the file's bytes): seek to `start` and `read_exact`
`end - start` bytes, which fails with an I/O error (UnexpectedEof) if the
range overruns the file. -/
def read_segment_from_file (archive : List Nat) (range : Nat × Nat) :
    RResult RError (List Nat) :=
  if range.2 ≤ archive.length then
    .ok ((archive.drop range.1).take (range.2 - range.1))
  else .err .ioError

/-- `BlizzCache::fetch_archive_entries`: `entries[0]` panics on an empty
slice; otherwise one coalesced `read_or_cache_segment` over the min/max range,
returning `(range.start, bytes)`. -/
def fetch_archive_entries (archive : List Nat)
    (entries : List ArchiveIndexEntry) : RResult RError (Nat × List Nat) :=
  match entries with
  | [] => .crash
  | first :: _ =>
    let range := coalesced_range first entries
    match read_segment_from_file archive range with
    | .ok data => .ok (range.1, data)
    | .err e => .err e
    | .crash => .crash

/-! ## Manifest (`src/tact/manifest.rs`) -/

/-- `Manifest`: retained column names and raw rows. -/
structure Manifest where
  field_names : List String
  rows : List (List String)
  deriving DecidableEq, Repr

/-- Character split (the computational content of Rust `str::split(c)` /
`String::split_on`): always returns at least one piece. -/
def splitOnChar (c : Char) : List Char → List (List Char)
  | [] => [[]]
  | x :: xs =>
    match splitOnChar c xs with
    | [] => [[x]]
    | h :: t => if x = c then [] :: h :: t else (x :: h) :: t

/-- Rust `str::lines`: split on `\n`, with no trailing empty line (`\r`
handling is irrelevant to the claims and omitted). -/
def rust_lines (s : List Char) : List (List Char) :=
  let parts := splitOnChar '\n' s
  if parts.getLast? = some [] then parts.dropLast else parts

/-- Header-field loop of `Manifest::parse`:
`field_def.split_once('!').unwrap().0` for each `|`-separated field (a field
without `!` panics on the `unwrap`). -/
def parse_header_fields : List (List Char) → RResult RError (List String)
  | [] => .ok []
  | fd :: rest =>
    match splitOnChar '!' fd with
    | [] => .crash
    | [_] => .crash
    | name :: _ :: _ =>
      match parse_header_fields rest with
      | .ok names => .ok (String.mk name :: names)
      | .err e => .err e
      | .crash => .crash

/-- `Manifest::parse` (`src/tact/manifest.rs:10-33`): the first line is the
header (`lines.next().unwrap()` panics on empty input); remaining lines that
are non-empty and not `#`-comments are split on `|` into rows, with **no**
validation of row width against the header. -/
def manifest_parse (text : List Char) : RResult RError Manifest :=
  match rust_lines text with
  | [] => .crash
  | header :: rest =>
    match parse_header_fields (splitOnChar '|' header) with
    | .ok names =>
      .ok { field_names := names
            rows := (rest.filter
                (fun l => !(l.isEmpty || l.take 1 = ['#']))).map
              (fun l => (splitOnChar '|' l).map String.mk) }
    | .err e => .err e
    | .crash => .crash

/-- `Manifest::get_field_index`: position of the column name. -/
def get_field_index (m : Manifest) (needle : String) : Option Nat :=
  m.field_names.findIdx? (fun n => n = needle)

/-- `Manifest::get_field`: checked row and cell access (`rows.get`,
`row.get`), so any miss is `None`. -/
def get_field (m : Manifest) (row : Nat) (field : String) : Option String :=
  (get_field_index m field).bind (fun fi =>
    (m.rows[row]?).bind (fun r => r[fi]?))

/-- Row scan of `Manifest::find_row`: `position(|row| row[field_index] ==
value)` — the **unchecked** `row[field_index]` panics on a row with too few
cells, but only if the scan reaches that row. -/
def find_row_loop (fi : Nat) (value : String) :
    List (List String) → Nat → RResult RError (Option Nat)
  | [], _ => .ok none
  | r :: rest, i =>
    match r[fi]? with
    | none => .crash
    | some cell =>
      if cell = value then .ok (some i)
      else find_row_loop fi value rest (i + 1)

/-- `Manifest::find_row` (`src/tact/manifest.rs:45-48`). -/
def find_row (m : Manifest) (field value : String) : RResult RError (Option Nat) :=
  match get_field_index m field with
  | none => .ok none
  | some fi => find_row_loop fi value m.rows 0

/-! ## Reference functions and predicates used by the claim statements -/

/-- Claim-side FileDataID reconstruction (spec §4.7 wording): start `fid = 0`;
for each `(delta, entry)` pair in order, `fid += delta`, record `(fid, entry)`,
`fid += 1`. -/
def block_records (fid : Nat) : List (Nat × RootFileEntry) → List (Nat × RootFileEntry)
  | [] => []
  | (delta, entry) :: rest => (fid + delta, entry) :: block_records (fid + delta + 1) rest

/-- All `(fid, entry)` records of a root table, blocks in parse order. -/
def root_records (blocks : List RootBlock) : List (Nat × RootFileEntry) :=
  (blocks.map (fun b => block_records 0 (b.file_id_delta_table.zip b.file_entries))).flatten

/-- Lookup where the **last** record of a key wins (spec: "last write wins"). -/
def lookupLast {α : Type} : List (Nat × α) → Nat → Option α
  | [], _ => none
  | (k, v) :: rest, fid => (lookupLast rest fid).or (if fid = k then some v else none)

/-- Index well-formedness of a root file: every index stored in the FileDataID
map points inside the entry list. -/
def RootWF (st : RootFile) : Prop :=
  ∀ fid i, mapLookup st.file_id_to_entry_index fid = some i → i < st.entries.length

/-- Chunk layout premise of the BLTE claim: starting at `offs`, every chunk of
the list lies inside `buf`, occupies exactly its `compressed_size` bytes, has
frame tag `N` (78) or `Z` (90) as its first byte, and (for `Z`) inflates
successfully; the indexed output is the concatenation of the decoded bodies. -/
inductive ChunksNZ (inflate : List Nat → Option (List Nat)) (buf : List Nat) :
    Nat → List BLTEChunk → List Nat → Prop
  | nil (offs : Nat) : ChunksNZ inflate buf offs [] []
  | consN (offs : Nat) (c : BLTEChunk) (rest : List BLTEChunk) (tl : List Nat)
      (hin : offs + c.compressed_size ≤ buf.length)
      (hsz : 1 ≤ c.compressed_size)
      (htag : buf.getD offs 0 = 78)
      (hrest : ChunksNZ inflate buf (offs + c.compressed_size) rest tl) :
      ChunksNZ inflate buf offs (c :: rest)
        (bytesAt buf (offs + 1) (c.compressed_size - 1) ++ tl)
  | consZ (offs : Nat) (c : BLTEChunk) (rest : List BLTEChunk) (tl d : List Nat)
      (hin : offs + c.compressed_size ≤ buf.length)
      (hsz : 1 ≤ c.compressed_size)
      (htag : buf.getD offs 0 = 90)
      (hinf : inflate (bytesAt buf (offs + 1) (c.compressed_size - 1)) = some d)
      (hrest : ChunksNZ inflate buf (offs + c.compressed_size) rest tl) :
      ChunksNZ inflate buf offs (c :: rest) (d ++ tl)

/-- Entry-order relation of the repack index: a later entry lives in a later
segment, or in the same segment strictly after the earlier entry's range. -/
def segOrder (a b : Entry) : Prop :=
  a.data_file_index < b.data_file_index ∨
    (a.data_file_index = b.data_file_index ∧
      a.start_bytes + a.size_bytes ≤ b.start_bytes)

/-- Per-entry bound inside a writer state: the entry's range ends at or before
the current write position (lexicographically on (segment, offset)). -/
def entry_bound (st : SheepfileWriter) (e : Entry) : Prop :=
  e.data_file_index < st.current_data_index ∨
    (e.data_file_index = st.current_data_index ∧
      e.start_bytes + e.size_bytes ≤ st.current_data_file_size)

/-- Writer-state invariant: the tracked size equals the current file's length,
segment files 0..N-1 are the closed ones, and every recorded entry is bounded
by the write position and fits inside its segment file. -/
def WInv (st : SheepfileWriter) : Prop :=
  st.current_data_file_size = st.current_file.length ∧
  st.closed_files.length = st.current_data_index ∧
  (∀ e ∈ st.entries, entry_bound st e) ∧
  (∀ e ∈ st.entries,
    e.start_bytes + e.size_bytes ≤ (segment_bytes st e.data_file_index).length)

/-! ## Concrete inputs used by the claims -/

/-- BLTE buffer holding a single `E`-tagged (encrypted) chunk:
magic, `data_offset` = 36, flag 0, one chunk of compressed size 2,
body `E` (69) plus one byte. -/
def blteEncryptedBuf : List Nat :=
  [66, 76, 84, 69, 0, 0, 0, 36, 0, 0, 0, 1,
   0, 0, 0, 2, 0, 0, 0, 1, 0, 0, 0, 0, 0, 0, 0, 0, 0, 0, 0, 0, 0, 0, 0, 0,
   69, 0]

/-- Spec §8 scenario 2 buffer exactly as written: `BLTE`, data_offset = 0x0F,
flag 0x0F, one chunk `{compressed_size = 5, uncompressed_size = 4, checksum
zeros}`, then `N` (78) and `de ad be ef`. -/
def blteScenario2Buf : List Nat :=
  [66, 76, 84, 69, 0, 0, 0, 0x0F, 0x0F, 0, 0, 1,
   0, 0, 0, 5, 0, 0, 0, 4, 0, 0, 0, 0, 0, 0, 0, 0, 0, 0, 0, 0, 0, 0, 0, 0,
   78, 0xde, 0xad, 0xbe, 0xef]

/-- Scenario 2 buffer with `data_offset` corrected to the actual start of the
chunk data (0x24 = 36, the header's size). -/
def blteScenario2FixedBuf : List Nat :=
  [66, 76, 84, 69, 0, 0, 0, 0x24, 0x0F, 0, 0, 1,
   0, 0, 0, 5, 0, 0, 0, 4, 0, 0, 0, 0, 0, 0, 0, 0, 0, 0, 0, 0, 0, 0, 0, 0,
   78, 0xde, 0xad, 0xbe, 0xef]

/-- Key bytes of the repository's own `test_ekey_conversion` unit test. -/
def testKeyBytes : List Nat :=
  [0x00, 0x17, 0xa4, 0x02, 0xf5, 0x56, 0xfb, 0xec,
   0xe4, 0x6c, 0x38, 0xdc, 0x43, 0x1a, 0x2c, 0x9b]

/-- Distinct content keys for the root-table example. -/
def ckeyA : List Nat := 10 :: List.replicate 15 0

/-- Second content key. -/
def ckeyB : List Nat := 11 :: List.replicate 15 0

/-- Third content key. -/
def ckeyC : List Nat := 12 :: List.replicate 15 0

/-- Spec §8 scenario 3 root block: `deltas = [0,2,0]`, entries
`(C_a,0), (C_b,0), (C_c,0)`. -/
def rootExampleBlock : RootBlock :=
  { file_id_delta_table := [0, 2, 0]
    file_entries := [⟨ckeyA, 0⟩, ⟨ckeyB, 0⟩, ⟨ckeyC, 0⟩] }

/-- Byte content of the archive-index counterexample blob: 4132 bytes; block 0
holds two non-null entries then the all-zero sentinel; the footer (offset
4096) passes every shape assertion and declares `num_files = 1`. -/
def archiveCexByte (i : Nat) : Nat :=
  if i = 0 then 1          -- entry 0 ekey byte
  else if i = 19 then 10   -- entry 0 size_bytes (BE) low byte
  else if i = 24 then 2    -- entry 1 ekey byte
  else if i = 43 then 20   -- entry 1 size_bytes low byte
  else if i = 47 then 10   -- entry 1 offset_bytes low byte
  else if i = 4112 then 1  -- footer version
  else if i = 4115 then 4  -- footer block_size_kb
  else if i = 4116 then 4  -- footer offset_bytes
  else if i = 4117 then 4  -- footer size_bytes
  else if i = 4118 then 16 -- footer key_size_in_bytes
  else if i = 4119 then 8  -- footer checksum_size
  else if i = 4120 then 1  -- footer num_files (LE) low byte
  else 0

/-- The archive-index counterexample blob. -/
def archiveCexData : ByteBuf := ⟨4132, archiveCexByte⟩

/-- Byte content of a 36-byte blob that is nothing but a valid footer with
`num_files = 1`: the first block slice `[0, 4096)` then overruns the buffer. -/
def archiveTinyByte (i : Nat) : Nat :=
  if i = 16 then 1        -- version
  else if i = 19 then 4   -- block_size_kb
  else if i = 20 then 4   -- offset_bytes
  else if i = 21 then 4   -- size_bytes
  else if i = 22 then 16  -- key_size_in_bytes
  else if i = 23 then 8   -- checksum_size
  else if i = 24 then 1   -- num_files low byte
  else 0

/-- The footer-only blob. -/
def archiveTinyData : ByteBuf := ⟨36, archiveTinyByte⟩

/-- Manifest whose second row is one cell short of the `B` column. -/
def manifestShortRow : Manifest :=
  { field_names := ["A", "B"], rows := [["x", "v"], ["y"]] }

/-- Manifest text whose data rows have mismatching widths (2 cells, then 1). -/
def manifestShortRowText : List Char := "A!x|B!y\nx|v\ny".toList

/-! ## Shared lemmas -/

/-- Searching for one key in a list filtered on a *different* key is the same
as searching the unfiltered list. -/
theorem find?_filter_ne {κ ν : Type} [DecidableEq κ]
    (m : List (κ × ν)) (k k' : κ) (h : k' ≠ k) :
    List.find? (fun p => decide (p.1 = k'))
        (m.filter (fun p => decide (p.1 ≠ k))) =
      List.find? (fun p => decide (p.1 = k')) m := by
  rw [List.find?_filter]
  congr 1
  funext a
  by_cases ha : a.1 = k'
  · have hak : ¬(a.1 = k) := fun hc => h (by rw [← ha, hc])
    simp [ha, hak, h]
  · simp [ha]

/-- Lookup after an overwrite-insert: the inserted key reads back its value,
other keys are untouched. -/
theorem mapLookup_mapInsert {κ ν : Type} [DecidableEq κ]
    (m : List (κ × ν)) (k k' : κ) (v : ν) :
    mapLookup (mapInsert m k v) k' = if k' = k then some v else mapLookup m k' := by
  unfold mapLookup mapInsert
  by_cases h : k' = k
  · subst h
    simp [List.find?_cons]
  · have hk : ¬(k = k') := fun hc => h hc.symm
    rw [List.find?_cons]
    have hkd : (decide (((k, v) : κ × ν).1 = k')) = false := by
      simpa using hk
    rw [hkd]
    simp only [h, if_neg, reduceIte]
    rw [find?_filter_ne m k k' h]

/-! ## C1 -/

/-- C1: refuted as stated — `decode_blte` on a chunk whose frame tag is `E`
(69) reaches `c => panic!("{}", c)` and panics; it does not return
`Err(UnsupportedEncryptedData)`, so the repack writer's
`Err(Error::UnsupportedEncryptedData)` log-and-skip arm is dead code and a
panic propagates out of the per-entry decode instead. -/
theorem c1_decode_blte_encrypted_panics :
    (∀ inflate, decode_blte inflate blteEncryptedBuf = .crash) ∧
    (∀ inflate,
      decode_blte inflate blteEncryptedBuf ≠ .err .unsupportedEncryptedData) ∧
    write_loop writer_new [⟨1, 2, .crash⟩] = .crash := by
  refine ⟨fun _ => rfl, fun i h => ?_, rfl⟩
  have : decode_blte i blteEncryptedBuf = .crash := rfl
  rw [this] at h
  exact absurd h (by decide)

/-! ## C2 -/

/-- C2: refuted as stated — `to_string` renders each byte with unpadded
`format!("{:x}", _)`, so the test vector of the repository's own
`test_ekey_conversion` encodes to 30 characters, not the expected 32-character
string; round-tripping it through `from_str` therefore fails on length, and a
32-character string with a non-hex character makes `from_str` panic on its
`unwrap` rather than return an error. -/
theorem c2_key_codec_unpadded :
    key_to_string testKeyBytes = "017a42f556fbece46c38dc431a2c9b".toList ∧
    (key_to_string testKeyBytes).length = 30 ∧
    key_to_string testKeyBytes ≠ "0017a402f556fbece46c38dc431a2c9b".toList ∧
    key_from_str (key_to_string testKeyBytes) =
      .err "requires string length of 16, got 30" ∧
    key_from_str "0017a402f556fbece46c38dc431a2c9g".toList = .crash ∧
    key_from_str "0017a402f556fbece46c38dc431a2c9b".toList = .ok testKeyBytes := by
  refine ⟨by decide, by decide, by decide, by decide, by decide, by decide⟩

/-! ## C4 -/

/-- Key lemma: the block loop never inserts the all-zero sentinel key. -/
theorem archive_block_loop_no_null (data : ByteBuf) (block_end : Nat) :
    ∀ (fuel : Nat) (entries : List (List Nat × ArchiveIndexEntry))
      (count pos : Nat),
      mapLookup entries NULL_EKEY = none →
      mapLookup (archive_block_loop data block_end entries count pos fuel).1
        NULL_EKEY = none := by
  intro fuel
  induction fuel with
  | zero => intro entries count pos h; simpa [archive_block_loop] using h
  | succ n ih =>
    intro entries count pos h
    rw [archive_block_loop]
    by_cases hle : pos + 24 ≤ block_end
    · simp only [if_pos hle]
      by_cases hkey : data.key16 pos = NULL_EKEY
      · simp [hkey, h]
      · simp only [hkey, if_neg, reduceIte]
        apply ih
        rw [mapLookup_mapInsert]
        simp only [h, ite_eq_right_iff]
        intro hnull
        exact absurd hnull.symm hkey
    · simpa [if_neg hle] using h

/-- Key lemma: a successful outer loop run keeps the map sentinel-free. -/
theorem archive_outer_loop_no_null (data : ByteBuf) (block_size target : Nat) :
    ∀ (fuel : Nat) (entries : List (List Nat × ArchiveIndexEntry))
      (count block_start : Nat) (res : List (List Nat × ArchiveIndexEntry)),
      mapLookup entries NULL_EKEY = none →
      archive_outer_loop data block_size target entries count block_start fuel =
        .ok res →
      mapLookup res NULL_EKEY = none := by
  intro fuel
  induction fuel with
  | zero => intro entries count block_start res _ h; simp [archive_outer_loop] at h
  | succ n ih =>
    intro entries count block_start res hnone h
    rw [archive_outer_loop] at h
    by_cases hov : block_start + block_size > data.size
    · simp [hov] at h
    · simp only [hov, if_neg, reduceIte] at h
      set pr := archive_block_loop data (block_start + block_size) entries count
        block_start block_size with hpr
      have hblock : mapLookup pr.1 NULL_EKEY = none :=
        archive_block_loop_no_null data (block_start + block_size) block_size
          entries count block_start hnone
      by_cases hcnt : pr.2 ≥ target
      · simp only [hcnt, if_pos] at h
        cases h
        exact hblock
      · simp only [hcnt, if_neg, reduceIte] at h
        exact ih pr.1 pr.2 (block_start + block_size) res hblock h

/-- C4 counterexample: the claim fails on the code. A 4132-byte blob whose
footer declares `num_files = 1` but whose first block holds two distinct
non-null entries is accepted with 2 recovered entries (the parser only checks
the count at block boundaries), and a 36-byte blob that is a valid footer with
`num_files = 1` makes the parser panic (block slice `[0, 4096)` overruns the
buffer) instead of failing with an error. -/
theorem c4_counterexample :
    (∃ r, archive_index_parse "k" archiveCexData = .ok r ∧
      r.entries.length = 2 ∧
      (parse_archive_footer archiveCexData (4132 - 0x24)).map
        (fun f => f.num_files) = some 1) ∧
    archive_index_parse "t" archiveTinyData = .crash := by
  exact ⟨⟨_, rfl, rfl, rfl⟩, rfl⟩

/-- C4 (amended): for every accepted archive index blob the sentinel
`NULL_EKEY` never appears as a key of the entries map; however the number of
recovered entries need not equal `footer.num_files` (the cumulative count is
only compared at block boundaries, so a block can overshoot), and a block
boundary that would require reading past the footer panics rather than
returning an error. -/
theorem c4_amended :
    (∀ (key : String) (data : ByteBuf) (r : ArchiveIndex),
      archive_index_parse key data = .ok r →
      mapLookup r.entries NULL_EKEY = none) ∧
    (∃ r, archive_index_parse "k" archiveCexData = .ok r ∧ r.entries.length = 2) ∧
    archive_index_parse "t" archiveTinyData = .crash := by
  refine ⟨?_, ⟨_, rfl, rfl⟩, rfl⟩
  intro key data r h
  unfold archive_index_parse at h
  by_cases hsz : data.size < 0x24
  · simp [hsz] at h
  · simp only [hsz, if_neg, reduceIte] at h
    cases hf : parse_archive_footer data (data.size - 0x24) with
    | none => rw [hf] at h; exact absurd h (by simp)
    | some footer =>
      rw [hf] at h
      simp only at h
      cases ho : archive_outer_loop data (footer.block_size_kb <<< 10)
          footer.num_files [] 0 0
          (data.size / (footer.block_size_kb <<< 10) + 2) with
      | ok entries =>
        rw [ho] at h
        simp only at h
        cases h
        exact archive_outer_loop_no_null data (footer.block_size_kb <<< 10)
          footer.num_files _ [] 0 0 entries (by simp [mapLookup]) ho
      | err e => rw [ho] at h; exact absurd h (by simp)
      | crash => rw [ho] at h; exact absurd h (by simp)

/-! ## C3 -/

/-- Concatenating record lists, the later list's records win. -/
theorem lookupLast_append {α : Type} (l₁ l₂ : List (Nat × α)) (fid : Nat) :
    lookupLast (l₁ ++ l₂) fid = (lookupLast l₂ fid).or (lookupLast l₁ fid) := by
  induction l₁ with
  | nil => simp [lookupLast]
  | cons p t ih =>
    cases p with
    | mk k v =>
      simp only [List.cons_append, lookupLast, List.append_eq, ih,
        Option.or_assoc]

/-- Effect of one record-and-push step on id resolution. -/
theorem resolve_insert_push (st : RootFile) (key : Nat) (entry : RootFileEntry)
    (nh : Nat) (f : Nat) (hwf : RootWF st) :
    root_get_entry_for_file_id
      ⟨st.entries ++ [entry],
        mapInsert st.file_id_to_entry_index key st.entries.length,
        mapInsert st.name_hash_to_entry_index nh st.entries.length⟩ f =
      if f = key then some entry else root_get_entry_for_file_id st f := by
  unfold root_get_entry_for_file_id
  simp only [mapLookup_mapInsert]
  by_cases h : f = key
  · simp [h, List.getElem?_append_right]
  · simp only [h, if_neg, reduceIte]
    cases hl : mapLookup st.file_id_to_entry_index f with
    | none => rfl
    | some i =>
      have hi : i < st.entries.length := hwf f i hl
      simp [List.getElem?_append, hi]

/-- One record-and-push step preserves index well-formedness. -/
theorem rootWF_insert_push (st : RootFile) (key : Nat) (entry : RootFileEntry)
    (nh : Nat) (hwf : RootWF st) :
    RootWF ⟨st.entries ++ [entry],
      mapInsert st.file_id_to_entry_index key st.entries.length,
      mapInsert st.name_hash_to_entry_index nh st.entries.length⟩ := by
  intro fid i h
  simp only [mapLookup_mapInsert] at h
  simp only [List.length_append, List.length_cons, List.length_nil]
  by_cases hf : fid = key
  · rw [if_pos hf] at h
    cases h
    omega
  · rw [if_neg hf] at h
    have := hwf fid i h
    omega

/-- The block loop preserves index well-formedness. -/
theorem root_block_loop_wf :
    ∀ (pairs : List (Nat × RootFileEntry)) (st : RootFile) (fid : Nat),
      RootWF st → RootWF (root_block_loop st fid pairs) := by
  intro pairs
  induction pairs with
  | nil => intro st fid h; simpa [root_block_loop] using h
  | cons p rest ih =>
    intro st fid h
    cases p with
    | mk delta entry =>
      rw [root_block_loop]
      exact ih _ _ (rootWF_insert_push st (fid + delta) entry entry.name_hash h)

/-- Id resolution after the block loop: the block's records (claim-side
reconstruction) win over the pre-existing state, later records first. -/
theorem root_block_loop_resolve :
    ∀ (pairs : List (Nat × RootFileEntry)) (st : RootFile) (fid0 f : Nat),
      RootWF st →
      root_get_entry_for_file_id (root_block_loop st fid0 pairs) f =
        (lookupLast (block_records fid0 pairs) f).or
          (root_get_entry_for_file_id st f) := by
  intro pairs
  induction pairs with
  | nil => intro st fid0 f h; simp [root_block_loop, block_records, lookupLast]
  | cons p rest ih =>
    intro st fid0 f h
    cases p with
    | mk delta entry =>
      rw [root_block_loop, block_records]
      simp only [lookupLast]
      rw [ih _ _ _ (rootWF_insert_push st (fid0 + delta) entry entry.name_hash h)]
      rw [resolve_insert_push st (fid0 + delta) entry entry.name_hash f h]
      rw [Option.or_assoc]
      congr 1
      by_cases hf : f = fid0 + delta
      · simp [hf]
      · simp [hf]

/-- The outer block fold preserves index well-formedness. -/
theorem root_parse_blocks_wf :
    ∀ (blocks : List RootBlock) (st : RootFile),
      RootWF st → RootWF (root_parse_blocks blocks st) := by
  intro blocks
  induction blocks with
  | nil => intro st h; simpa [root_parse_blocks] using h
  | cons b rest ih =>
    intro st h
    rw [root_parse_blocks]
    exact ih _ (root_block_loop_wf _ st 0 h)

/-- Id resolution after the whole parse fold. -/
theorem root_parse_blocks_resolve :
    ∀ (blocks : List RootBlock) (st : RootFile) (f : Nat),
      RootWF st →
      root_get_entry_for_file_id (root_parse_blocks blocks st) f =
        (lookupLast (root_records blocks) f).or
          (root_get_entry_for_file_id st f) := by
  intro blocks
  induction blocks with
  | nil =>
    intro st f h
    rw [root_parse_blocks]
    simp [root_records, lookupLast]
  | cons b rest ih =>
    intro st f h
    rw [root_parse_blocks]
    rw [ih _ _ (root_block_loop_wf _ st 0 h)]
    rw [root_block_loop_resolve _ st 0 f h]
    have hrec : root_records (b :: rest) =
        block_records 0 (List.zip b.file_id_delta_table b.file_entries) ++
          root_records rest := by
      simp [root_records]
    rw [hrec, lookupLast_append, Option.or_assoc]

/-- C3: FileDataIDs are reconstructed per block by `fid += delta`, record,
`fid += 1` (the claim-side `block_records` / `root_records`), with the
last-parsed record winning in the id index; in particular the block with
deltas `[0,2,0]` and entries `(C_a,0), (C_b,0), (C_c,0)` yields exactly the
mapping `{0 → C_a, 3 → C_b, 4 → C_c}`. -/
theorem c3_file_id_reconstruction :
    (∀ (blocks : List RootBlock) (fid : Nat),
      root_get_entry_for_file_id (root_parse blocks) fid =
        lookupLast (root_records blocks) fid) ∧
    (∀ fid : Nat,
      root_get_entry_for_file_id (root_parse [rootExampleBlock]) fid =
        if fid = 0 then some ⟨ckeyA, 0⟩
        else if fid = 3 then some ⟨ckeyB, 0⟩
        else if fid = 4 then some ⟨ckeyC, 0⟩
        else none) := by
  have hgen : ∀ (blocks : List RootBlock) (fid : Nat),
      root_get_entry_for_file_id (root_parse blocks) fid =
        lookupLast (root_records blocks) fid := by
    intro blocks fid
    unfold root_parse
    rw [root_parse_blocks_resolve blocks ⟨[], [], []⟩ fid
      (by intro f i h; simp [mapLookup] at h)]
    simp [root_get_entry_for_file_id, mapLookup]
  refine ⟨hgen, ?_⟩
  intro fid
  rw [hgen]
  by_cases h0 : fid = 0
  · subst h0; decide
  · by_cases h3 : fid = 3
    · subst h3; decide
    · by_cases h4 : fid = 4
      · subst h4; decide
      · simp only [h0, h3, h4, if_neg, reduceIte]
        simp [root_records, rootExampleBlock, block_records, lookupLast,
          h0, h3, h4]

/-! ## C7 -/

/-- Decoding loop on an all-`N`/`Z` chunk list appends the concatenated
bodies to the accumulator. -/
theorem decode_blte_loop_nz (inflate : List Nat → Option (List Nat))
    (buf : List Nat) :
    ∀ (chunks : List BLTEChunk) (offs : Nat) (result : List Nat),
      ChunksNZ inflate buf offs chunks result →
      ∀ out, decode_blte_loop inflate buf chunks offs out = .ok (out ++ result) := by
  intro chunks offs result h
  induction h with
  | nil offs => intro out; simp [decode_blte_loop]
  | consN offs c rest tl hin hsz htag hrest ih =>
    intro out
    rw [decode_blte_loop]
    have h1 : ¬(offs + c.compressed_size > buf.length) := by omega
    have h2 : ¬(c.compressed_size = 0) := by omega
    simp only [h1, h2, if_neg, reduceIte, htag, if_pos]
    rw [ih (out ++ bytesAt buf (offs + 1) (c.compressed_size - 1))]
    rw [List.append_assoc]
  | consZ offs c rest tl d hin hsz htag hinf hrest ih =>
    intro out
    rw [decode_blte_loop]
    have h1 : ¬(offs + c.compressed_size > buf.length) := by omega
    have h2 : ¬(c.compressed_size = 0) := by omega
    have h3 : (90 : Nat) ≠ 78 := by decide
    simp only [h1, h2, if_neg, reduceIte, htag, h3, if_pos, hinf]
    rw [ih (out ++ d)]
    rw [List.append_assoc]

/-- C7 counterexample: the claim's §8 scenario-2 buffer, with
`data_offset = 0x0F` exactly as the spec writes it, makes `decode_blte` panic
(the "chunk" at offset 15 starts inside the chunk descriptor, where the first
byte is 5 — not a recognized frame tag), rather than decode to
`de ad be ef`. -/
theorem c7_counterexample :
    decode_blte (fun l => some l) blteScenario2Buf = .crash ∧
    decode_blte (fun l => some l) blteScenario2Buf ≠
      .ok [0xde, 0xad, 0xbe, 0xef] := by
  exact ⟨rfl, by decide⟩

/-- C7 (amended): for every BLTE buffer whose chunks, laid out at
`data_offset` plus the preceding compressed sizes, all carry frame tag `N` or
`Z` (each chunk in bounds, its first byte the tag, `Z` bodies inflating
successfully), `decode_blte` returns the concatenation of the decoded bodies
in chunk order; the §8 scenario-2 buffer decodes to `de ad be ef` once its
`data_offset` is corrected to 0x24, the actual start of the chunk data. -/
theorem c7_decode_blte_nz :
    (∀ (inflate : List Nat → Option (List Nat)) (buf : List Nat)
      (header : BLTEHeader) (result : List Nat),
      parse_blte_header buf = some header →
      ChunksNZ inflate buf header.data_offset header.chunks result →
      decode_blte inflate buf = .ok result) ∧
    decode_blte (fun l => some l) blteScenario2FixedBuf =
      .ok [0xde, 0xad, 0xbe, 0xef] := by
  constructor
  · intro inflate buf header result hparse hchunks
    unfold decode_blte
    rw [hparse]
    simpa using decode_blte_loop_nz inflate buf header.chunks
      header.data_offset result hchunks []
  · rfl

/-- C7 witness: the amended theorem applied at the corrected scenario-2
buffer, with its hypotheses discharged by computation. -/
theorem c7_decode_blte_nz_witness :
    decode_blte (fun l => some l) blteScenario2FixedBuf =
      .ok [0xde, 0xad, 0xbe, 0xef] := by
  have hbody : bytesAt blteScenario2FixedBuf (36 + 1) (5 - 1) ++ ([] : List Nat) =
      [0xde, 0xad, 0xbe, 0xef] := by decide
  have hchunks : ChunksNZ (fun l => some l) blteScenario2FixedBuf 36
      [⟨5, 4, List.replicate 16 0⟩] [0xde, 0xad, 0xbe, 0xef] := by
    rw [← hbody]
    exact ChunksNZ.consN 36 ⟨5, 4, List.replicate 16 0⟩ [] []
      (by decide) (by decide) (by decide) (ChunksNZ.nil (36 + 5))
  exact c7_decode_blte_nz.1 (fun l => some l) blteScenario2FixedBuf
    ⟨36, 0x0F, 1, [⟨5, 4, List.replicate 16 0⟩]⟩ [0xde, 0xad, 0xbe, 0xef]
    (by decide) hchunks

/-! ## C8 -/

/-- C8: each missing resolution link yields its distinct typed error, returned
as an `Err`, never a panic: a file id absent from the root id index gives
`MissingFileId(id)`; a path whose normalized hash is absent from the
name-hash index gives `MissingFileName(path)`; and for either operation, a
resolved CKey with no EKey in the encoding table, or an EKey found in no
archive index, gives `MissingCKey`. -/
theorem c8_typed_resolution_errors :
    (∀ (f : CDNFetcher) fb inf (id : Nat),
      mapLookup f.root.file_id_to_entry_index id = none →
      fetch_file_id f fb inf id = .err (.missingFileId id)) ∧
    (∀ (f : CDNFetcher) fb inf (hash : List Char → Nat) (path : List Char),
      mapLookup f.root.name_hash_to_entry_index (hash (normalize_path path)) = none →
      fetch_file_name f fb inf hash path = .err (.missingFileName (String.mk path))) ∧
    (∀ (f : CDNFetcher) fb inf (id : Nat) (ck : List Nat),
      get_ckey_for_file_id f.root id = .ok (some ck) →
      get_ekey_for_ckey f.encoding ck = none →
      fetch_file_id f fb inf id = .err .missingCKey) ∧
    (∀ (f : CDNFetcher) fb inf (id : Nat) (ck ek : List Nat),
      get_ckey_for_file_id f.root id = .ok (some ck) →
      get_ekey_for_ckey f.encoding ck = some ek →
      (∀ a ∈ f.archive_index, get_entry_for_ekey a ek = none) →
      fetch_file_id f fb inf id = .err .missingCKey) ∧
    (∀ (f : CDNFetcher) fb inf (hash : List Char → Nat) (path : List Char)
      (ck : List Nat),
      get_ckey_for_file_path f.root hash path = .ok (some ck) →
      get_ekey_for_ckey f.encoding ck = none →
      fetch_file_name f fb inf hash path = .err .missingCKey) ∧
    (∀ (f : CDNFetcher) fb inf (hash : List Char → Nat) (path : List Char)
      (ck ek : List Nat),
      get_ckey_for_file_path f.root hash path = .ok (some ck) →
      get_ekey_for_ckey f.encoding ck = some ek →
      (∀ a ∈ f.archive_index, get_entry_for_ekey a ek = none) →
      fetch_file_name f fb inf hash path = .err .missingCKey) := by
  refine ⟨?_, ?_, ?_, ?_, ?_, ?_⟩
  · intro f fb inf id h
    simp [fetch_file_id, get_ckey_for_file_id, h]
  · intro f fb inf hash path h
    simp [fetch_file_name, get_ckey_for_file_path, h]
  · intro f fb inf id ck hck henc
    simp [fetch_file_id, hck, fetch_ckey_from_archive, henc]
  · intro f fb inf id ck ek hck henc hfind
    have hnone : find_archive_entry f ek = none := by
      unfold find_archive_entry
      rw [List.findSome?_eq_none_iff]
      intro a ha
      rw [hfind a ha]
      rfl
    simp [fetch_file_id, hck, fetch_ckey_from_archive, henc, hnone]
  · intro f fb inf hash path ck hck henc
    simp [fetch_file_name, hck, fetch_ckey_from_archive, henc]
  · intro f fb inf hash path ck ek hck henc hfind
    have hnone : find_archive_entry f ek = none := by
      unfold find_archive_entry
      rw [List.findSome?_eq_none_iff]
      intro a ha
      rw [hfind a ha]
      rfl
    simp [fetch_file_name, hck, fetch_ckey_from_archive, henc, hnone]

/-- C8 witness: the six conjuncts applied at small concrete fetchers (empty
root; root with id 5 and name hash 7 resolving to `ckeyA`; encoding empty or
mapping `ckeyA` to `ckeyB`; no archives). -/
theorem c8_typed_resolution_errors_witness :
    fetch_file_id ⟨[], ⟨[], [], []⟩, ⟨[]⟩⟩ (fun _ _ => .crash) (fun _ => none) 9 =
      .err (.missingFileId 9) ∧
    fetch_file_name ⟨[], ⟨[], [], []⟩, ⟨[]⟩⟩ (fun _ _ => .crash) (fun _ => none)
      (fun _ => 3) ['a'] = .err (.missingFileName (String.mk ['a'])) ∧
    fetch_file_id ⟨[], ⟨[⟨ckeyA, 7⟩], [(5, 0)], [(7, 0)]⟩, ⟨[]⟩⟩
      (fun _ _ => .crash) (fun _ => none) 5 = .err .missingCKey ∧
    fetch_file_id ⟨[], ⟨[⟨ckeyA, 7⟩], [(5, 0)], [(7, 0)]⟩, ⟨[(ckeyA, ckeyB)]⟩⟩
      (fun _ _ => .crash) (fun _ => none) 5 = .err .missingCKey ∧
    fetch_file_name ⟨[], ⟨[⟨ckeyA, 7⟩], [(5, 0)], [(7, 0)]⟩, ⟨[]⟩⟩
      (fun _ _ => .crash) (fun _ => none) (fun _ => 7) ['a'] = .err .missingCKey ∧
    fetch_file_name ⟨[], ⟨[⟨ckeyA, 7⟩], [(5, 0)], [(7, 0)]⟩, ⟨[(ckeyA, ckeyB)]⟩⟩
      (fun _ _ => .crash) (fun _ => none) (fun _ => 7) ['a'] = .err .missingCKey := by
  refine ⟨?_, ?_, ?_, ?_, ?_, ?_⟩
  · exact c8_typed_resolution_errors.1 _ _ _ 9 rfl
  · exact c8_typed_resolution_errors.2.1 _ _ _ _ ['a'] rfl
  · exact c8_typed_resolution_errors.2.2.1 _ _ _ 5 ckeyA (by decide) rfl
  · exact c8_typed_resolution_errors.2.2.2.1 _ _ _ 5 ckeyA ckeyB (by decide) (by decide)
      (fun a ha => absurd ha (List.not_mem_nil a))
  · exact c8_typed_resolution_errors.2.2.2.2.1 _ _ _ _ ['a'] ckeyA (by decide) rfl
  · exact c8_typed_resolution_errors.2.2.2.2.2 _ _ _ _ ['a'] ckeyA ckeyB (by decide)
      (by decide) (fun a ha => absurd ha (List.not_mem_nil a))

/-! ## C9 -/

/-- The range-union fold can only shrink the start and grow the end. -/
theorem range_union_mono :
    ∀ (l : List ArchiveIndexEntry) (r : Nat × Nat),
      (l.foldl range_union_step r).1 ≤ r.1 ∧ r.2 ≤ (l.foldl range_union_step r).2 := by
  intro l
  induction l with
  | nil => intro r; exact ⟨Nat.le_refl _, Nat.le_refl _⟩
  | cons e t ih =>
    intro r
    have h := ih (range_union_step r e)
    simp only [List.foldl_cons]
    constructor
    · exact Nat.le_trans h.1 (Nat.min_le_left _ _)
    · exact Nat.le_trans (Nat.le_max_left _ _) h.2

/-- Every entry's byte range lies inside the folded union. -/
theorem range_union_bounds :
    ∀ (l : List ArchiveIndexEntry) (r : Nat × Nat) (e : ArchiveIndexEntry),
      e ∈ l →
      (l.foldl range_union_step r).1 ≤ e.offset_bytes ∧
      e.offset_bytes + e.size_bytes ≤ (l.foldl range_union_step r).2 := by
  intro l
  induction l with
  | nil => intro r e h; exact absurd h (List.not_mem_nil e)
  | cons a t ih =>
    intro r e h
    simp only [List.foldl_cons]
    rcases List.mem_cons.mp h with he | he
    · subst he
      have hm := range_union_mono t (range_union_step r e)
      refine ⟨Nat.le_trans hm.1 ?_, Nat.le_trans ?_ hm.2⟩
      · exact Nat.min_le_right _ _
      · exact Nat.le_max_right _ _
    · exact ih (range_union_step r a) e he

/-- The folded start is the initial start or some entry's offset. -/
theorem range_union_start_attained :
    ∀ (l : List ArchiveIndexEntry) (r : Nat × Nat),
      (l.foldl range_union_step r).1 = r.1 ∨
        ∃ e ∈ l, (l.foldl range_union_step r).1 = e.offset_bytes := by
  intro l
  induction l with
  | nil => intro r; exact Or.inl rfl
  | cons a t ih =>
    intro r
    simp only [List.foldl_cons]
    rcases ih (range_union_step r a) with h | ⟨e, he, hme⟩
    · rw [h]
      unfold range_union_step get_byte_range
      rcases Nat.le_total r.1 a.offset_bytes with hle | hle
      · exact Or.inl (Nat.min_eq_left hle)
      · exact Or.inr ⟨a, List.mem_cons_self a t, Nat.min_eq_right hle⟩
    · exact Or.inr ⟨e, List.mem_cons_of_mem a he, hme⟩

/-- The folded end stays below any bound dominating the initial end and all
entry ends. -/
theorem range_union_end_le :
    ∀ (l : List ArchiveIndexEntry) (r : Nat × Nat) (L : Nat),
      r.2 ≤ L → (∀ e ∈ l, e.offset_bytes + e.size_bytes ≤ L) →
      (l.foldl range_union_step r).2 ≤ L := by
  intro l
  induction l with
  | nil => intro r L h _; exact h
  | cons a t ih =>
    intro r L h hall
    simp only [List.foldl_cons]
    apply ih (range_union_step r a) L
    · exact Nat.max_le.mpr ⟨h, hall a (List.mem_cons_self a t)⟩
    · exact fun e he => hall e (List.mem_cons_of_mem a he)

/-- C9: on a non-empty entry list whose ranges lie inside the archive,
`fetch_archive_entries` issues the single coalesced range
`[min offset, max (offset+size))`, returns `absolute_offset` equal to the
minimum entry offset, and each entry's bytes are
`buffer[offset - absolute_offset .. + size]`; an archive with exactly one
entry covering the whole archive yields `(0, entire_archive)`. -/
theorem c9_fetch_archive_entries :
    (∀ (archive : List Nat) (first : ArchiveIndexEntry)
      (rest : List ArchiveIndexEntry),
      (∀ e ∈ first :: rest, e.offset_bytes + e.size_bytes ≤ archive.length) →
      ∃ buf,
        fetch_archive_entries archive (first :: rest) =
          .ok ((coalesced_range first (first :: rest)).1, buf) ∧
        (∀ e ∈ first :: rest,
          (coalesced_range first (first :: rest)).1 ≤ e.offset_bytes) ∧
        (∃ e ∈ first :: rest,
          (coalesced_range first (first :: rest)).1 = e.offset_bytes) ∧
        (∀ e ∈ first :: rest,
          (buf.drop (e.offset_bytes - (coalesced_range first (first :: rest)).1)).take
              e.size_bytes =
            (archive.drop e.offset_bytes).take e.size_bytes)) ∧
    (∀ (archive : List Nat) (k : List Nat),
      fetch_archive_entries archive [⟨k, archive.length, 0⟩] = .ok (0, archive)) := by
  constructor
  · intro archive first rest hin
    have hend : (coalesced_range first (first :: rest)).2 ≤ archive.length := by
      unfold coalesced_range
      exact range_union_end_le (first :: rest) (get_byte_range first)
        archive.length (hin first (List.mem_cons_self first rest)) hin
    have hread : read_segment_from_file archive (coalesced_range first (first :: rest)) =
        .ok ((archive.drop (coalesced_range first (first :: rest)).1).take
          ((coalesced_range first (first :: rest)).2 -
            (coalesced_range first (first :: rest)).1)) := by
      unfold read_segment_from_file
      rw [if_pos hend]
    refine ⟨(archive.drop (coalesced_range first (first :: rest)).1).take
      ((coalesced_range first (first :: rest)).2 -
        (coalesced_range first (first :: rest)).1), ?_, ?_, ?_, ?_⟩
    · have hred : fetch_archive_entries archive (first :: rest) =
          match read_segment_from_file archive (coalesced_range first (first :: rest)) with
          | .ok data => .ok ((coalesced_range first (first :: rest)).1, data)
          | .err e => .err e
          | .crash => .crash := rfl
      rw [hred, hread]
    · intro e he
      exact (range_union_bounds (first :: rest) (get_byte_range first) e he).1
    · rcases range_union_start_attained (first :: rest) (get_byte_range first)
        with h | h
      · refine ⟨first, List.mem_cons_self first rest, ?_⟩
        unfold coalesced_range
        rw [h]
        rfl
      · exact h
    · intro e he
      have hb := range_union_bounds (first :: rest) (get_byte_range first) e he
      have h1 : (coalesced_range first (first :: rest)).1 ≤ e.offset_bytes := hb.1
      have h2 : e.offset_bytes + e.size_bytes ≤
          (coalesced_range first (first :: rest)).2 := hb.2
      rw [List.drop_take, List.drop_drop, List.take_take]
      have ho : (coalesced_range first (first :: rest)).1 +
          (e.offset_bytes - (coalesced_range first (first :: rest)).1) =
            e.offset_bytes := by omega
      have hs : e.size_bytes ⊓ ((coalesced_range first (first :: rest)).2 -
          (coalesced_range first (first :: rest)).1 -
            (e.offset_bytes - (coalesced_range first (first :: rest)).1)) =
          e.size_bytes := Nat.min_eq_left (by omega)
      rw [ho, hs]
  · intro archive k
    unfold fetch_archive_entries coalesced_range
    simp only [List.foldl_cons, List.foldl_nil]
    unfold range_union_step get_byte_range read_segment_from_file
    simp

/-- C9 witness: the general conjunct applied to a two-entry archive, plus the
closed whole-archive case. -/
theorem c9_fetch_archive_entries_witness :
    (∃ buf,
      fetch_archive_entries [1, 2, 3, 4, 5, 6]
          [⟨ckeyA, 2, 4⟩, ⟨ckeyB, 3, 1⟩] =
        .ok ((coalesced_range ⟨ckeyA, 2, 4⟩ [⟨ckeyA, 2, 4⟩, ⟨ckeyB, 3, 1⟩]).1, buf) ∧
      (∀ e ∈ [⟨ckeyA, 2, 4⟩, (⟨ckeyB, 3, 1⟩ : ArchiveIndexEntry)],
        (coalesced_range ⟨ckeyA, 2, 4⟩ [⟨ckeyA, 2, 4⟩, ⟨ckeyB, 3, 1⟩]).1 ≤
          e.offset_bytes) ∧
      (∃ e ∈ [⟨ckeyA, 2, 4⟩, (⟨ckeyB, 3, 1⟩ : ArchiveIndexEntry)],
        (coalesced_range ⟨ckeyA, 2, 4⟩ [⟨ckeyA, 2, 4⟩, ⟨ckeyB, 3, 1⟩]).1 =
          e.offset_bytes) ∧
      (∀ e ∈ [⟨ckeyA, 2, 4⟩, (⟨ckeyB, 3, 1⟩ : ArchiveIndexEntry)],
        (buf.drop (e.offset_bytes -
            (coalesced_range ⟨ckeyA, 2, 4⟩ [⟨ckeyA, 2, 4⟩, ⟨ckeyB, 3, 1⟩]).1)).take
            e.size_bytes =
          (([1, 2, 3, 4, 5, 6] : List Nat).drop e.offset_bytes).take e.size_bytes)) ∧
    fetch_archive_entries [7, 8, 9] [⟨ckeyA, 3, 0⟩] = .ok (0, [7, 8, 9]) := by
  constructor
  · exact c9_fetch_archive_entries.1 [1, 2, 3, 4, 5, 6] ⟨ckeyA, 2, 4⟩
      [⟨ckeyB, 3, 1⟩] (by decide)
  · exact c9_fetch_archive_entries.2 [7, 8, 9] ckeyA

/-! ## C10 -/

/-- Row scan of `find_row` panics when the first row whose cell matches is
preceded by a row with too few cells. -/
theorem find_row_loop_crash (fi : Nat) (value : String)
    (short : List String) (post : List (List String))
    (hshort : short.length ≤ fi) :
    ∀ (pre : List (List String)) (i : Nat),
      (∀ r ∈ pre, ∃ cell, r[fi]? = some cell ∧ cell ≠ value) →
      find_row_loop fi value (pre ++ short :: post) i = .crash := by
  intro pre
  induction pre with
  | nil =>
    intro i _
    rw [List.nil_append, find_row_loop]
    rw [List.getElem?_eq_none hshort]
  | cons r t ih =>
    intro i hall
    rcases hall r (List.mem_cons_self r t) with ⟨cell, hcell, hne⟩
    rw [List.cons_append, find_row_loop, hcell]
    simp only [hne, if_neg, reduceIte]
    exact ih (i + 1) (fun r' hr' => hall r' (List.mem_cons_of_mem r hr'))

/-- C10 counterexample: the claim fails as stated — `manifestShortRow`
contains a row (`["y"]`) with fewer cells than the index of column `B`, yet
`find_row` returns `Ok(Some 0)` without panicking, because the scan
short-circuits at the earlier matching row. -/
theorem c10_counterexample :
    find_row manifestShortRow "B" "v" = .ok (some 0) ∧
    find_row manifestShortRow "B" "v" ≠ .crash ∧
    get_field_index manifestShortRow "B" = some 1 ∧
    (∃ r ∈ manifestShortRow.rows, r.length ≤ 1) := by
  refine ⟨by decide, by decide, by decide, ⟨["y"], by decide, by decide⟩⟩

/-- C10 (amended): `get_field` returns `None` whenever the column name, the
row index, or the row's cell is absent, and `Manifest::parse` accepts rows of
mismatched width without re-validating them against the header; `find_row`
indexes rows unchecked and panics exactly when the scan *reaches* a row with
fewer cells than the searched column's index — i.e. when such a row precedes
every matching row (a match in an earlier row short-circuits the scan). -/
theorem c10_amended :
    (∀ (m : Manifest) (row : Nat) (field : String),
      get_field_index m field = none → get_field m row field = none) ∧
    (∀ (m : Manifest) (row : Nat) (field : String),
      m.rows[row]? = none → get_field m row field = none) ∧
    (∀ (m : Manifest) (row : Nat) (field : String) (fi : Nat) (r : List String),
      get_field_index m field = some fi → m.rows[row]? = some r →
      r[fi]? = none → get_field m row field = none) ∧
    (∀ (m : Manifest) (field value : String) (fi : Nat)
      (pre : List (List String)) (short : List String)
      (post : List (List String)),
      get_field_index m field = some fi →
      m.rows = pre ++ short :: post →
      (∀ r ∈ pre, ∃ cell, r[fi]? = some cell ∧ cell ≠ value) →
      short.length ≤ fi →
      find_row m field value = .crash) ∧
    manifest_parse manifestShortRowText = .ok manifestShortRow ∧
    manifestShortRow.rows.map List.length = [2, 1] ∧
    manifestShortRow.field_names.length = 2 := by
  refine ⟨?_, ?_, ?_, ?_, by decide, by decide, by decide⟩
  · intro m row field h
    simp [get_field, h]
  · intro m row field h
    cases hfi : get_field_index m field with
    | none => simp [get_field, hfi]
    | some fi => simp [get_field, hfi, h]
  · intro m row field fi r hfi hrow hcell
    simp [get_field, hfi, hrow, hcell]
  · intro m field value fi pre short post hfi hrows hall hshort
    unfold find_row
    rw [hfi, hrows]
    exact find_row_loop_crash fi value short post hshort pre 0 hall

/-- C10 witness: the amended conjuncts applied at concrete manifests — a
missing column, a missing row, the short row's missing cell, and a manifest
whose short row precedes every match (which panics). -/
theorem c10_amended_witness :
    get_field manifestShortRow 0 "C" = none ∧
    get_field manifestShortRow 5 "B" = none ∧
    get_field manifestShortRow 1 "B" = none ∧
    find_row ⟨["A", "B"], [["x", "w"], ["y"]]⟩ "B" "v" = .crash := by
  refine ⟨?_, ?_, ?_, ?_⟩
  · exact c10_amended.1 manifestShortRow 0 "C" (by decide)
  · exact c10_amended.2.1 manifestShortRow 5 "B" (by decide)
  · exact c10_amended.2.2.1 manifestShortRow 1 "B" 1 ["y"] (by decide) (by decide)
      (by decide)
  · exact c10_amended.2.2.2.1 ⟨["A", "B"], [["x", "w"], ["y"]]⟩ "B" "v" 1
      [["x", "w"]] ["y"] [] (by decide) (by decide)
      (fun r hr => by
        have h := List.mem_singleton.mp hr
        subst h
        exact ⟨"w", by decide, by decide⟩)
      (by decide)

/-! ## C5/C6: sheepfile writer lemmas -/

/-- Slices already inside a list are unchanged when the list is extended. -/
theorem slice_stable {α : Type} (l t : List α) (s n : Nat) (h : s + n ≤ l.length) :
    ((l ++ t).drop s).take n = (l.drop s).take n := by
  rw [List.drop_append_of_le_length (by omega), List.take_append_of_le_length]
  simp
  omega

/-- `append_entry` in the rolled case (payload would overflow the segment). -/
theorem append_entry_roll (st : SheepfileWriter) (fid nh : Nat) (d : List Nat)
    (h : d.length + st.current_data_file_size > MAX_DATA_FILE_SIZE_BYTES) :
    append_entry st fid nh d =
      { current_data_index := st.current_data_index + 1
        current_file := d
        current_data_file_size := d.length
        closed_files := st.closed_files ++ [st.current_file]
        entries := st.entries ++
          [⟨fid, nh, st.current_data_index + 1, 0, d.length⟩] } := by
  simp [append_entry, new_data_file, h]

/-- `append_entry` in the non-rolled case. -/
theorem append_entry_noroll (st : SheepfileWriter) (fid nh : Nat) (d : List Nat)
    (h : ¬(d.length + st.current_data_file_size > MAX_DATA_FILE_SIZE_BYTES)) :
    append_entry st fid nh d =
      { current_data_index := st.current_data_index
        current_file := st.current_file ++ d
        current_data_file_size := st.current_data_file_size + d.length
        closed_files := st.closed_files
        entries := st.entries ++
          [⟨fid, nh, st.current_data_index, st.current_data_file_size,
            d.length⟩] } := by
  simp [append_entry, h]

/-- The initial writer state satisfies the invariant. -/
theorem wInv_writer_new : WInv writer_new := by
  refine ⟨rfl, rfl, ?_, ?_⟩ <;> intro e he <;> exact absurd he (List.not_mem_nil e)

/-- Segment bytes of the rolled state. -/
theorem segment_bytes_roll (st : SheepfileWriter) (hB : st.closed_files.length = st.current_data_index) :
    ∀ (d : List Nat) (fid nh : Nat) (k : Nat),
      segment_bytes
        { current_data_index := st.current_data_index + 1
          current_file := d
          current_data_file_size := d.length
          closed_files := st.closed_files ++ [st.current_file]
          entries := st.entries ++
            [⟨fid, nh, st.current_data_index + 1, 0, d.length⟩] } k =
        if k < st.current_data_index then segment_bytes st k
        else if k = st.current_data_index then st.current_file
        else if k = st.current_data_index + 1 then d
        else [] := by
  intro d fid nh k
  unfold segment_bytes
  simp only [List.length_append, List.length_cons, List.length_nil, hB]
  by_cases h1 : k < st.current_data_index
  · rw [if_pos (by omega : k < st.current_data_index + (0 + 1)), if_pos h1,
      List.getD_append _ _ _ _ (by omega), if_pos (by omega)]
  · by_cases h2 : k = st.current_data_index
    · rw [if_pos (by omega : k < st.current_data_index + (0 + 1)), if_neg h1,
        if_pos h2, List.getD_append_right _ _ _ _ (by omega)]
      simp [h2, hB]
    · rw [if_neg (by omega : ¬k < st.current_data_index + (0 + 1)), if_neg h1,
        if_neg h2]

/-- Segment bytes of the non-rolled state. -/
theorem segment_bytes_noroll (st : SheepfileWriter) (hB : st.closed_files.length = st.current_data_index) :
    ∀ (d : List Nat) (fid nh : Nat) (k : Nat),
      segment_bytes
        { current_data_index := st.current_data_index
          current_file := st.current_file ++ d
          current_data_file_size := st.current_data_file_size + d.length
          closed_files := st.closed_files
          entries := st.entries ++
            [⟨fid, nh, st.current_data_index, st.current_data_file_size,
              d.length⟩] } k =
        if k = st.current_data_index then st.current_file ++ d
        else segment_bytes st k := by
  intro d fid nh k
  unfold segment_bytes
  by_cases h1 : k < st.closed_files.length
  · rw [if_pos h1, if_neg (by omega), if_pos h1]
  · by_cases h2 : k = st.current_data_index
    · rw [if_neg h1, if_pos h2, if_pos h2]
    · rw [if_neg h1, if_neg h2, if_neg h2, if_neg h1, if_neg h2]

/-- Appending only ever extends a segment file. -/
theorem segment_bytes_append (st : SheepfileWriter)
    (hB : st.closed_files.length = st.current_data_index)
    (fid nh : Nat) (d : List Nat) (k : Nat) :
    ∃ t, segment_bytes (append_entry st fid nh d) k = segment_bytes st k ++ t := by
  have hst : segment_bytes st k =
      if k < st.closed_files.length then st.closed_files.getD k []
      else if k = st.current_data_index then st.current_file else [] := rfl
  by_cases h : d.length + st.current_data_file_size > MAX_DATA_FILE_SIZE_BYTES
  · rw [append_entry_roll st fid nh d h, segment_bytes_roll st hB d fid nh k]
    by_cases h1 : k < st.current_data_index
    · exact ⟨[], by rw [if_pos h1, List.append_nil]⟩
    · by_cases h2 : k = st.current_data_index
      · refine ⟨[], ?_⟩
        rw [if_neg h1, if_pos h2, hst, if_neg (by omega), if_pos h2,
          List.append_nil]
      · by_cases h3 : k = st.current_data_index + 1
        · refine ⟨d, ?_⟩
          rw [if_neg h1, if_neg h2, if_pos h3, hst, if_neg (by omega),
            if_neg h2, List.nil_append]
        · refine ⟨[], ?_⟩
          rw [if_neg h1, if_neg h2, if_neg h3, hst, if_neg (by omega),
            if_neg h2, List.append_nil]
  · rw [append_entry_noroll st fid nh d h, segment_bytes_noroll st hB d fid nh k]
    by_cases h2 : k = st.current_data_index
    · refine ⟨d, ?_⟩
      rw [if_pos h2, hst, if_neg (by omega), if_pos h2]
    · exact ⟨[], by rw [if_neg h2, List.append_nil]⟩

/-- `append_entry` preserves the writer invariant. -/
theorem append_entry_wInv (st : SheepfileWriter) (fid nh : Nat) (d : List Nat)
    (hI : WInv st) : WInv (append_entry st fid nh d) := by
  obtain ⟨hA, hB, hC, hE⟩ := hI
  by_cases h : d.length + st.current_data_file_size > MAX_DATA_FILE_SIZE_BYTES
  · rw [append_entry_roll st fid nh d h]
    refine ⟨rfl, by simp [hB], ?_, ?_⟩
    · intro e he
      rcases List.mem_append.mp he with hold | hnew
      · rcases hC e hold with hlt | ⟨heq, _⟩
        · exact Or.inl (by simp only; omega)
        · exact Or.inl (by simp only; omega)
      · rcases List.mem_singleton.mp hnew with rfl
        exact Or.inr ⟨rfl, by simp⟩
    · intro e he
      rcases List.mem_append.mp he with hold | hnew
      · have hfit := hE e hold
        have := segment_bytes_roll st hB d fid nh e.data_file_index
        rw [this]
        rcases hC e hold with hlt | ⟨heq, hle⟩
        · rw [if_pos hlt]; exact hfit
        · rw [if_neg (by omega), if_pos heq]
          calc e.start_bytes + e.size_bytes ≤ st.current_data_file_size := hle
            _ = st.current_file.length := hA
      · rcases List.mem_singleton.mp hnew with rfl
        rw [segment_bytes_roll st hB d fid nh]
        simp
  · rw [append_entry_noroll st fid nh d h]
    refine ⟨by simp [hA], by simp [hB], ?_, ?_⟩
    · intro e he
      rcases List.mem_append.mp he with hold | hnew
      · rcases hC e hold with hlt | ⟨heq, hle⟩
        · exact Or.inl hlt
        · exact Or.inr ⟨heq, by simp only; omega⟩
      · rcases List.mem_singleton.mp hnew with rfl
        exact Or.inr ⟨rfl, by simp⟩
    · intro e he
      rcases List.mem_append.mp he with hold | hnew
      · have hfit := hE e hold
        rw [segment_bytes_noroll st hB d fid nh]
        by_cases heq : e.data_file_index = st.current_data_index
        · rw [if_pos heq]
          rcases hC e hold with hlt | ⟨_, hle⟩
          · exact absurd heq (by omega)
          · simp only [List.length_append]
            omega
        · rw [if_neg heq]
          exact hfit
      · rcases List.mem_singleton.mp hnew with rfl
        rw [segment_bytes_noroll st hB d fid nh]
        simp [hA]

/-- The entry recorded by `append_entry` carries the arguments' id, hash and
size, and its byte range inside its segment holds exactly the payload. -/
theorem append_entry_new_slice (st : SheepfileWriter) (f n : Nat) (d : List Nat)
    (hI : WInv st) :
    ∃ e : Entry, (append_entry st f n d).entries = st.entries ++ [e] ∧
      e.file_id = f ∧ e.name_hash = n ∧ e.size_bytes = d.length ∧
      e.start_bytes + e.size_bytes ≤
        (segment_bytes (append_entry st f n d) e.data_file_index).length ∧
      ((segment_bytes (append_entry st f n d) e.data_file_index).drop
          e.start_bytes).take e.size_bytes = d := by
  obtain ⟨hA, hB, _, _⟩ := hI
  by_cases h : d.length + st.current_data_file_size > MAX_DATA_FILE_SIZE_BYTES
  · have hseg : segment_bytes (append_entry st f n d)
        (st.current_data_index + 1) = d := by
      rw [append_entry_roll st f n d h, segment_bytes_roll st hB d f n]
      rw [if_neg (by omega), if_neg (by omega), if_pos rfl]
    refine ⟨⟨f, n, st.current_data_index + 1, 0, d.length⟩,
      by rw [append_entry_roll st f n d h], rfl, rfl, rfl, ?_, ?_⟩
    · show 0 + d.length ≤
        (segment_bytes (append_entry st f n d) (st.current_data_index + 1)).length
      rw [hseg]
      omega
    · show ((segment_bytes (append_entry st f n d)
          (st.current_data_index + 1)).drop 0).take d.length = d
      rw [hseg, List.drop_zero, List.take_length]
  · have hseg : segment_bytes (append_entry st f n d) st.current_data_index =
        st.current_file ++ d := by
      rw [append_entry_noroll st f n d h, segment_bytes_noroll st hB d f n,
        if_pos rfl]
    refine ⟨⟨f, n, st.current_data_index, st.current_data_file_size, d.length⟩,
      by rw [append_entry_noroll st f n d h], rfl, rfl, rfl, ?_, ?_⟩
    · show st.current_data_file_size + d.length ≤
        (segment_bytes (append_entry st f n d) st.current_data_index).length
      rw [hseg]
      simp only [List.length_append]
      omega
    · show ((segment_bytes (append_entry st f n d)
          st.current_data_index).drop st.current_data_file_size).take d.length = d
      rw [hseg, hA, List.drop_left, List.take_length]

/-- `run_appends` preserves the writer invariant. -/
theorem run_appends_wInv :
    ∀ (ps : List (Nat × Nat × List Nat)) (st : SheepfileWriter),
      WInv st → WInv (run_appends st ps) := by
  intro ps
  induction ps with
  | nil => intro st h; exact h
  | cons p rest ih =>
    intro st h
    cases p with
    | mk f q =>
      cases q with
      | mk n d => exact ih _ (append_entry_wInv st f n d h)

/-- `run_appends` only ever extends every segment file. -/
theorem run_appends_segext :
    ∀ (ps : List (Nat × Nat × List Nat)) (st : SheepfileWriter),
      WInv st → ∀ k, ∃ t,
        segment_bytes (run_appends st ps) k = segment_bytes st k ++ t := by
  intro ps
  induction ps with
  | nil => intro st _ k; exact ⟨[], by simp [run_appends]⟩
  | cons p rest ih =>
    intro st h k
    cases p with
    | mk f q =>
      cases q with
      | mk n d =>
        obtain ⟨t1, h1⟩ := segment_bytes_append st h.2.1 f n d k
        obtain ⟨t2, h2⟩ := ih (append_entry st f n d) (append_entry_wInv st f n d h) k
        exact ⟨t1 ++ t2, by rw [run_appends, h2, h1, List.append_assoc]⟩

/-- `run_appends` only ever appends to the entry list. -/
theorem run_appends_entries_ext :
    ∀ (ps : List (Nat × Nat × List Nat)) (st : SheepfileWriter),
      ∃ t, (run_appends st ps).entries = st.entries ++ t := by
  intro ps
  induction ps with
  | nil => intro st; exact ⟨[], by simp [run_appends]⟩
  | cons p rest ih =>
    intro st
    cases p with
    | mk f q =>
      cases q with
      | mk n d =>
        obtain ⟨t2, h2⟩ := ih (append_entry st f n d)
        rw [run_appends, h2]
        by_cases h : d.length + st.current_data_file_size > MAX_DATA_FILE_SIZE_BYTES
        · rw [append_entry_roll st f n d h]
          exact ⟨_, by rw [List.append_assoc]⟩
        · rw [append_entry_noroll st f n d h]
          exact ⟨_, by rw [List.append_assoc]⟩

/-- `run_appends` adds one entry per payload. -/
theorem run_appends_len :
    ∀ (ps : List (Nat × Nat × List Nat)) (st : SheepfileWriter),
      (run_appends st ps).entries.length = st.entries.length + ps.length := by
  intro ps
  induction ps with
  | nil => intro st; simp [run_appends]
  | cons p rest ih =>
    intro st
    cases p with
    | mk f q =>
      cases q with
      | mk n d =>
        rw [run_appends, ih]
        by_cases h : d.length + st.current_data_file_size > MAX_DATA_FILE_SIZE_BYTES
        · rw [append_entry_roll st f n d h]
          simp only [List.length_append, List.length_cons, List.length_nil]
          omega
        · rw [append_entry_noroll st f n d h]
          simp only [List.length_append, List.length_cons, List.length_nil]
          omega

/-- One append keeps every segment at or below the size cap, provided the
payload itself is at most the cap. -/
theorem append_entry_cap (st : SheepfileWriter) (f n : Nat) (d : List Nat)
    (hI : WInv st)
    (hcap : ∀ k, (segment_bytes st k).length ≤ MAX_DATA_FILE_SIZE_BYTES)
    (hd : d.length ≤ MAX_DATA_FILE_SIZE_BYTES) :
    ∀ k, (segment_bytes (append_entry st f n d) k).length ≤
      MAX_DATA_FILE_SIZE_BYTES := by
  obtain ⟨hA, hB, _, _⟩ := hI
  intro k
  have hcur : segment_bytes st st.current_data_index = st.current_file := by
    unfold segment_bytes
    rw [if_neg (by omega), if_pos rfl]
  by_cases h : d.length + st.current_data_file_size > MAX_DATA_FILE_SIZE_BYTES
  · rw [append_entry_roll st f n d h, segment_bytes_roll st hB d f n]
    by_cases h1 : k < st.current_data_index
    · rw [if_pos h1]; exact hcap k
    · by_cases h2 : k = st.current_data_index
      · rw [if_neg h1, if_pos h2]
        have := hcap st.current_data_index
        rw [hcur] at this
        exact this
      · by_cases h3 : k = st.current_data_index + 1
        · rw [if_neg h1, if_neg h2, if_pos h3]; exact hd
        · rw [if_neg h1, if_neg h2, if_neg h3]; simp
  · rw [append_entry_noroll st f n d h, segment_bytes_noroll st hB d f n]
    by_cases h2 : k = st.current_data_index
    · rw [if_pos h2]
      simp only [List.length_append]
      omega
    · rw [if_neg h2]; exact hcap k

/-- `run_appends` keeps every segment at or below the size cap. -/
theorem run_appends_cap :
    ∀ (ps : List (Nat × Nat × List Nat)) (st : SheepfileWriter),
      WInv st →
      (∀ k, (segment_bytes st k).length ≤ MAX_DATA_FILE_SIZE_BYTES) →
      (∀ p ∈ ps, (p.2.2 : List Nat).length ≤ MAX_DATA_FILE_SIZE_BYTES) →
      ∀ k, (segment_bytes (run_appends st ps) k).length ≤
        MAX_DATA_FILE_SIZE_BYTES := by
  intro ps
  induction ps with
  | nil => intro st _ hcap _ k; exact hcap k
  | cons p rest ih =>
    intro st hI hcap hall k
    cases p with
    | mk f q =>
      cases q with
      | mk n d =>
        rw [run_appends]
        exact ih (append_entry st f n d) (append_entry_wInv st f n d hI)
          (append_entry_cap st f n d hI hcap
            (hall (f, n, d) (List.mem_cons_self _ _)))
          (fun p hp => hall p (List.mem_cons_of_mem _ hp)) k

/-- Each payload is recoverable, unsplit, from its recorded entry's range in
the final state. -/
theorem run_appends_payloads :
    ∀ (ps : List (Nat × Nat × List Nat)) (st : SheepfileWriter),
      WInv st →
      ∀ i, (hi : i < ps.length) →
        ∃ e : Entry,
          (run_appends st ps).entries[st.entries.length + i]? = some e ∧
          e.file_id = (ps.get ⟨i, hi⟩).1 ∧
          e.name_hash = (ps.get ⟨i, hi⟩).2.1 ∧
          e.size_bytes = (ps.get ⟨i, hi⟩).2.2.length ∧
          ((segment_bytes (run_appends st ps) e.data_file_index).drop
              e.start_bytes).take e.size_bytes = (ps.get ⟨i, hi⟩).2.2 := by
  intro ps
  induction ps with
  | nil => intro st _ i hi; exact absurd hi (by simp)
  | cons p rest ih =>
    intro st hI i hi
    cases p with
    | mk f q =>
      cases q with
      | mk n d =>
        have hI' := append_entry_wInv st f n d hI
        obtain ⟨e, hent, hf, hn, hsz, hbound, hslice⟩ :=
          append_entry_new_slice st f n d hI
        cases i with
        | zero =>
          refine ⟨e, ?_, hf, hn, hsz, ?_⟩
          · rw [run_appends]
            obtain ⟨t, ht⟩ := run_appends_entries_ext rest (append_entry st f n d)
            rw [ht, hent]
            simp only [Nat.add_zero]
            rw [List.append_assoc, List.getElem?_append_right (Nat.le_refl _)]
            simp
          · rw [run_appends]
            obtain ⟨t2, ht2⟩ :=
              run_appends_segext rest (append_entry st f n d) hI' e.data_file_index
            rw [ht2, slice_stable _ _ _ _ hbound]
            exact hslice
        | succ j =>
          have hj : j < rest.length := by
            simpa using hi
          obtain ⟨e', he', hp⟩ := ih (append_entry st f n d) hI' j hj
          refine ⟨e', ?_, ?_⟩
          · rw [run_appends]
            have hlen : (append_entry st f n d).entries.length =
                st.entries.length + 1 := by
              rw [hent]
              simp
            rw [show st.entries.length + (j + 1) =
              (append_entry st f n d).entries.length + j by rw [hlen]; omega]
            exact he'
          · simpa [run_appends] using hp

/-- C5: `append_entry` opens a new segment exactly when the payload would push
the current segment past `MAX_DATA_FILE_SIZE_BYTES`; a payload of exactly the
cap starts a new segment iff the current segment is non-empty; and for every
sequence of appended payloads each of size at most the cap, every segment
file's final size is ≤ the cap, one entry per payload is recorded, and each
payload occupies a single contiguous range in exactly one segment (it is never
split across segments). -/
theorem c5_segment_append_policy :
    (∀ (st : SheepfileWriter) (fid nh : Nat) (d : List Nat),
      (append_entry st fid nh d).current_data_index =
        if d.length + st.current_data_file_size > MAX_DATA_FILE_SIZE_BYTES
        then st.current_data_index + 1 else st.current_data_index) ∧
    (∀ (st : SheepfileWriter) (fid nh : Nat) (d : List Nat),
      d.length = MAX_DATA_FILE_SIZE_BYTES →
      ((append_entry st fid nh d).current_data_index = st.current_data_index + 1 ↔
        st.current_data_file_size ≠ 0)) ∧
    (∀ ps : List (Nat × Nat × List Nat),
      (∀ p ∈ ps, (p.2.2 : List Nat).length ≤ MAX_DATA_FILE_SIZE_BYTES) →
      (∀ k, (segment_bytes (run_appends writer_new ps) k).length ≤
        MAX_DATA_FILE_SIZE_BYTES) ∧
      (run_appends writer_new ps).entries.length = ps.length ∧
      (∀ i, (hi : i < ps.length) →
        ∃ e : Entry,
          (run_appends writer_new ps).entries[i]? = some e ∧
          e.file_id = (ps.get ⟨i, hi⟩).1 ∧
          e.name_hash = (ps.get ⟨i, hi⟩).2.1 ∧
          e.size_bytes = (ps.get ⟨i, hi⟩).2.2.length ∧
          ((segment_bytes (run_appends writer_new ps) e.data_file_index).drop
              e.start_bytes).take e.size_bytes = (ps.get ⟨i, hi⟩).2.2)) := by
  refine ⟨?_, ?_, ?_⟩
  · intro st fid nh d
    by_cases h : d.length + st.current_data_file_size > MAX_DATA_FILE_SIZE_BYTES
    · rw [append_entry_roll st fid nh d h, if_pos h]
    · rw [append_entry_noroll st fid nh d h, if_neg h]
  · intro st fid nh d hd
    by_cases h : d.length + st.current_data_file_size > MAX_DATA_FILE_SIZE_BYTES
    · rw [append_entry_roll st fid nh d h]
      simp only [true_iff]
      omega
    · rw [append_entry_noroll st fid nh d h]
      simp only
      constructor
      · intro hcontr
        omega
      · intro hne
        omega
  · intro ps hall
    refine ⟨run_appends_cap ps writer_new wInv_writer_new ?_ hall, ?_, ?_⟩
    · intro k
      unfold writer_new segment_bytes
      simp only
      by_cases h1 : k < ([] : List (List Nat)).length
      · simp at h1
      · rw [if_neg h1]
        by_cases h2 : k = 0
        · simp [h2]
        · simp [h2]
    · rw [run_appends_len]
      simp [writer_new]
    · intro i hi
      have := run_appends_payloads ps writer_new wInv_writer_new i hi
      simpa [writer_new] using this

/-- C5 witness: the theorem applied at two concrete payloads within the cap,
and the exact-cap boundary applied at the fresh (empty) writer. -/
theorem c5_segment_append_policy_witness :
    ((∀ k, (segment_bytes (run_appends writer_new [(1, 2, [7, 7]), (3, 4, [8])]) k).length ≤
        MAX_DATA_FILE_SIZE_BYTES) ∧
      (run_appends writer_new [(1, 2, [7, 7]), (3, 4, [8])]).entries.length = 2 ∧
      (∀ i, (hi : i < ([(1, 2, [7, 7]), (3, 4, [8])] :
          List (Nat × Nat × List Nat)).length) →
        ∃ e : Entry,
          (run_appends writer_new [(1, 2, [7, 7]), (3, 4, [8])]).entries[i]? = some e ∧
          e.file_id = (([(1, 2, [7, 7]), (3, 4, [8])] :
            List (Nat × Nat × List Nat)).get ⟨i, hi⟩).1 ∧
          e.name_hash = (([(1, 2, [7, 7]), (3, 4, [8])] :
            List (Nat × Nat × List Nat)).get ⟨i, hi⟩).2.1 ∧
          e.size_bytes = (([(1, 2, [7, 7]), (3, 4, [8])] :
            List (Nat × Nat × List Nat)).get ⟨i, hi⟩).2.2.length ∧
          ((segment_bytes (run_appends writer_new [(1, 2, [7, 7]), (3, 4, [8])])
              e.data_file_index).drop e.start_bytes).take e.size_bytes =
            (([(1, 2, [7, 7]), (3, 4, [8])] :
              List (Nat × Nat × List Nat)).get ⟨i, hi⟩).2.2)) ∧
    ((append_entry writer_new 0 0
        (List.replicate MAX_DATA_FILE_SIZE_BYTES 0)).current_data_index =
      writer_new.current_data_index + 1 ↔
        writer_new.current_data_file_size ≠ 0) := by
  constructor
  · exact c5_segment_append_policy.2.2 [(1, 2, [7, 7]), (3, 4, [8])] (by decide)
  · exact c5_segment_append_policy.2.1 writer_new 0 0
      (List.replicate MAX_DATA_FILE_SIZE_BYTES 0) (by simp)

/-- The entry recorded by `append_entry` comes after every previously
recorded entry in the (segment, offset) order. -/
theorem append_entry_entries_order (st : SheepfileWriter) (f n : Nat)
    (d : List Nat) (hI : WInv st) :
    ∃ e : Entry, (append_entry st f n d).entries = st.entries ++ [e] ∧
      e.file_id = f ∧ ∀ e' ∈ st.entries, segOrder e' e := by
  obtain ⟨hA, hB, hC, hE⟩ := hI
  by_cases h : d.length + st.current_data_file_size > MAX_DATA_FILE_SIZE_BYTES
  · refine ⟨⟨f, n, st.current_data_index + 1, 0, d.length⟩,
      by rw [append_entry_roll st f n d h], rfl, ?_⟩
    intro e' he'
    rcases hC e' he' with hlt | ⟨heq, _⟩
    · exact Or.inl (by show e'.data_file_index < st.current_data_index + 1; omega)
    · exact Or.inl (by show e'.data_file_index < st.current_data_index + 1; omega)
  · refine ⟨⟨f, n, st.current_data_index, st.current_data_file_size, d.length⟩,
      by rw [append_entry_noroll st f n d h], rfl, ?_⟩
    intro e' he'
    rcases hC e' he' with hlt | ⟨heq, hle⟩
    · exact Or.inl hlt
    · exact Or.inr ⟨heq, hle⟩

/-- Invariant run of the `write_cdn_files` append phase: starting from a
well-formed state whose entries are below every pending item's file id and
pairwise ordered, a successful `write_loop` ends with entries pairwise
non-decreasing in file id and pairwise ordered by (segment, offset). -/
theorem write_loop_props :
    ∀ (items : List WorkItem) (st fin : SheepfileWriter),
      WInv st →
      List.Pairwise workLe items →
      (∀ e ∈ st.entries, ∀ it ∈ items, e.file_id ≤ it.file_id) →
      List.Pairwise (fun a b : Entry => a.file_id ≤ b.file_id) st.entries →
      List.Pairwise segOrder st.entries →
      write_loop st items = .ok fin →
      List.Pairwise (fun a b : Entry => a.file_id ≤ b.file_id) fin.entries ∧
      List.Pairwise segOrder fin.entries := by
  intro items
  induction items with
  | nil =>
    intro st fin hI hs hb hpf hps h
    rw [write_loop] at h
    cases h
    exact ⟨hpf, hps⟩
  | cons it rest ih =>
    intro st fin hI hs hb hpf hps h
    rw [write_loop] at h
    cases hd : it.decoded with
    | ok d =>
      rw [hd] at h
      obtain ⟨e, hent, hfid, horder⟩ :=
        append_entry_entries_order st it.file_id it.name_hash d hI
      have hI' := append_entry_wInv st it.file_id it.name_hash d hI
      have hsc := List.pairwise_cons.mp hs
      refine ih (append_entry st it.file_id it.name_hash d) fin hI' hsc.2 ?_ ?_ ?_ h
      · intro e' he' it' hit'
        rw [hent] at he'
        rcases List.mem_append.mp he' with hold | hnew
        · exact hb e' hold it' (List.mem_cons_of_mem it hit')
        · rcases List.mem_singleton.mp hnew with rfl
          rw [hfid]
          exact hsc.1 it' hit'
      · rw [hent, List.pairwise_append]
        refine ⟨hpf, List.pairwise_singleton _ _, ?_⟩
        intro a ha b hbn
        rcases List.mem_singleton.mp hbn with rfl
        rw [hfid]
        exact hb a ha it (List.mem_cons_self it rest)
      · rw [hent, List.pairwise_append]
        refine ⟨hps, List.pairwise_singleton _ _, ?_⟩
        intro a ha b hbn
        rcases List.mem_singleton.mp hbn with rfl
        exact horder a ha
    | err ee =>
      rw [hd] at h
      cases ee with
      | unsupportedEncryptedData =>
        exact ih st fin hI (List.pairwise_cons.mp hs).2
          (fun e he it' hit' => hb e he it' (List.mem_cons_of_mem it hit'))
          hpf hps h
      | httpRequestError => exact absurd h (by simp)
      | ioError => exact absurd h (by simp)
      | dekuError => exact absurd h (by simp)
      | missingCKey => exact absurd h (by simp)
      | zlibError => exact absurd h (by simp)
      | missingFileId id => exact absurd h (by simp)
      | missingFileName p => exact absurd h (by simp)
    | crash =>
      rw [hd] at h
      exact absurd h (by simp)

/-- C6: for every repack accepted by `write_cdn_files`, the written index
lists the entries in the order they were appended (`finish` serializes the
accumulated entry list verbatim), successive entries have non-decreasing
`file_id` (the merged work list is sorted by file id before appending), and
any two entries in the same segment have disjoint byte ranges with the
smaller `start_bytes` appended earlier. -/
theorem c6_index_sorted_disjoint :
    ∀ (items : List WorkItem) (idx : Index),
      write_cdn_files items = .ok idx →
      (∃ st, write_loop writer_new (List.insertionSort workLe items) = .ok st ∧
        idx = writer_finish st ∧ idx.entries = st.entries) ∧
      idx.num_entries = idx.entries.length ∧
      List.Pairwise (fun a b : Entry => a.file_id ≤ b.file_id) idx.entries ∧
      List.Pairwise (fun a b : Entry =>
        a.data_file_index = b.data_file_index →
          a.start_bytes + a.size_bytes ≤ b.start_bytes) idx.entries := by
  intro items idx h
  unfold write_cdn_files at h
  cases hw : write_loop writer_new (List.insertionSort workLe items) with
  | ok st =>
    rw [hw] at h
    cases h
    have hprops := write_loop_props (List.insertionSort workLe items)
      writer_new st wInv_writer_new
      (List.sorted_insertionSort workLe items)
      (fun e he _ _ => absurd he (List.not_mem_nil e))
      List.Pairwise.nil List.Pairwise.nil hw
    refine ⟨⟨st, rfl, rfl, rfl⟩, rfl, hprops.1, ?_⟩
    refine hprops.2.imp ?_
    intro a b hso heq
    rcases hso with hlt | ⟨_, hle⟩
    · exact absurd heq (by omega)
    · exact hle
  | err e =>
    rw [hw] at h
    exact absurd h (by simp)
  | crash =>
    rw [hw] at h
    exact absurd h (by simp)

/-- C6 witness: the theorem applied to a concrete three-item work list (out
of order, one encrypted skip), whose repack succeeds. -/
theorem c6_index_sorted_disjoint_witness :
    ∃ idx, write_cdn_files
        [⟨2, 0, .ok [9]⟩, ⟨1, 0, .ok [8, 8]⟩,
          ⟨5, 0, .err .unsupportedEncryptedData⟩] = .ok idx ∧
      List.Pairwise (fun a b : Entry => a.file_id ≤ b.file_id) idx.entries ∧
      List.Pairwise (fun a b : Entry =>
        a.data_file_index = b.data_file_index →
          a.start_bytes + a.size_bytes ≤ b.start_bytes) idx.entries := by
  refine ⟨_, rfl, ?_, ?_⟩
  · exact (c6_index_sorted_disjoint
      [⟨2, 0, .ok [9]⟩, ⟨1, 0, .ok [8, 8]⟩,
        ⟨5, 0, .err .unsupportedEncryptedData⟩] _ rfl).2.2.1
  · exact (c6_index_sorted_disjoint
      [⟨2, 0, .ok [9]⟩, ⟨1, 0, .ok [8, 8]⟩,
        ⟨5, 0, .err .unsupportedEncryptedData⟩] _ rfl).2.2.2

end Polymorph
